import Mathlib

/-!
Verification of the clutchlang front-end: the `SourceFile` line/column
bookkeeping (`src/agnostic/scanner.ts`) and the `ClutchLexer` tokenizer.
TypeScript strings are modelled as `List Char`; JavaScript `charCodeAt` reads
past the end (which yield `NaN`) are modelled as `Option Char` reads yielding
`none`, with every comparison against `none` false, matching the behaviour of
`NaN` under `===`, `<`, `>=` and the character predicates.  Out-of-range JS
array reads (`undefined`) are likewise `Option` reads.  Offsets that the code
manipulates as JS numbers (which may go negative) are modelled as `Int`.
-/

namespace Clutch

/-- Modelled from the spec: `isDigit` from the repository's `agnostic/strings`
module, whose source file is not included: `'0' ≤ c ≤ '9'`. -/
def isDigit (c : Char) : Bool := decide ('0' ≤ c) && decide (c ≤ '9')

/-- Modelled from the spec: `isHexadecimal` — digit or `a`..`f` or `A`..`F`. -/
def isHexadecimal (c : Char) : Bool :=
  isDigit c || (decide ('a' ≤ c) && decide (c ≤ 'f')) ||
    (decide ('A' ≤ c) && decide (c ≤ 'F'))

/-- Modelled from the spec: `isLetter` — `a`..`z` or `A`..`Z`. -/
def isLetter (c : Char) : Bool :=
  (decide ('a' ≤ c) && decide (c ≤ 'z')) || (decide ('A' ≤ c) && decide (c ≤ 'Z'))

/-- Modelled from the spec: `isWhiteSpace` — space, tab, LF, CR. -/
def isWhiteSpace (c : Char) : Bool :=
  c == ' ' || c == '\t' || c == '\n' || c == '\r'

/-- `isIdentifierStart` (lexer module): letter or underscore. -/
def isIdentifierStart (c : Char) : Bool := isLetter c || c == '_'

/-- `isIdentifier` (lexer module): identifier-start or digit. -/
def isIdentifier (c : Char) : Bool := isIdentifierStart c || isDigit c

/-! ## SourceFile: the line-start table (`scanner.ts`, `computeLineStarts`) -/

/-- One pass of `SourceFile.computeLineStarts` (scanner.ts:207-227) over the
remaining contents, `i` being the absolute index of the head character.  A `CR`
whose successor is not `LF` (`rest.head?` models `charCodeAt(i+1)`, `none` for
one-past-the-end) is treated as `LF`; every `LF` pushes `i + 1`. -/
def lineStartsGo : List Char → Nat → List Nat
  | [], _ => []
  | c :: rest, i =>
    let c2 := if c == '\r' && rest.head? != some '\n' then '\n' else c
    if c2 == '\n' then (i + 1) :: lineStartsGo rest (i + 1)
    else lineStartsGo rest (i + 1)

/-- `SourceFile.computeLineStarts`: the memoised line-start table. -/
def computeLineStarts (contents : List Char) : List Nat := lineStartsGo contents 0

/-- JS array read `arr[i]`: negative or out-of-range indices yield
`undefined`, modelled as `none`. -/
def jsIndex (ls : List Nat) (i : Int) : Option Nat :=
  if i < 0 then none else ls[i.toNat]?

/-- JS comparison `offset < arr[i]`: a comparison against `undefined` is
false. -/
def jsLtOpt (o : Int) : Option Nat → Bool
  | some n => decide (o < (n : Int))
  | none => false

/-- JS comparison `offset >= arr[i]`: a comparison against `undefined` is
false. -/
def jsGeOpt (o : Int) : Option Nat → Bool
  | some n => decide ((n : Int) ≤ o)
  | none => false

/-- `SourceFile.assertValidOffset` (scanner.ts:178-187): `RangeError` for a
negative offset or one greater than the length. -/
def assertValidOffset (contents : List Char) (offset : Int) : Except String Unit :=
  if offset < 0 then .error "Offset may not be negative."
  else if (contents.length : Int) < offset then
    .error "Offset must not be greater than the length."
  else .ok ()

/-- `SourceFile.binarySearch`'s while loop (scanner.ts:192-205).  The loop
shrinks `max - min` by at least one per iteration, so a fuel of
`max - min` (or more) reproduces the unbounded loop; the caller passes
`ls.length`. -/
def binarySearchGo (ls : List Nat) (offset : Int) : Nat → Int → Int → Int
  | 0, _, max => max
  | fuel + 1, min, max =>
    if min < max then
      let half := min + (max - min) / 2
      if jsLtOpt offset (jsIndex ls half) then binarySearchGo ls offset fuel min half
      else binarySearchGo ls offset fuel (half + 1) max
    else max

/-- `SourceFile.binarySearch`: `min = 0`, `max = lineStarts.length - 1` (which
is `-1` for an empty table, skipping the loop). -/
def binarySearch (ls : List Nat) (offset : Int) : Int :=
  binarySearchGo ls offset ls.length 0 ((ls.length : Int) - 1)

/-- `SourceFile.computeLine` (scanner.ts:157-166).  Both guards read the table
at `0` resp. `length - 1`; for an empty table both reads are `undefined` and
both guards are false (JS `NaN`-style comparison), falling through to the
binary search. -/
def computeLine (contents : List Char) (offset : Int) : Except String Int :=
  match assertValidOffset contents offset with
  | .error e => .error e
  | .ok _ =>
    let ls := computeLineStarts contents
    if jsLtOpt offset ls[0]? then .ok 0
    else if jsGeOpt offset ls[ls.length - 1]? then .ok (ls.length : Int)
    else .ok (binarySearch ls offset)

/-- `SourceFile.computeColumn` (scanner.ts:171-176): `line := computeLine - 1`,
`start := lineStarts[line] || 0` (the `|| 0` turns an `undefined` read into
`0`), result `offset - start`. -/
def computeColumn (contents : List Char) (offset : Int) : Except String Int :=
  match assertValidOffset contents offset with
  | .error e => .error e
  | .ok _ =>
    match computeLine contents offset with
    | .error e => .error e
    | .ok l =>
      let ls := computeLineStarts contents
      let start := (jsIndex ls (l - 1)).getD 0
      .ok (offset - (start : Int))

/-- A `FileSpan` as produced by `SourceFile.span`: the offset and the text
slice (line and column are lazy and derived, not stored). -/
structure FileSpan where
  offset : Int
  text : List Char
deriving DecidableEq

/-- JS `contents.substring(a, b)` for `0 ≤ a ≤ b`: the slice `[a, b)`. -/
def substringJS (contents : List Char) (a b : Nat) : List Char :=
  (contents.drop a).take (b - a)

/-- `SourceFile.span` (scanner.ts:143-152): assert both endpoints, then
`RangeError` when `stop < start`, else a `FileSpan` of the slice. -/
def span (contents : List Char) (start stop : Int) : Except String FileSpan :=
  match assertValidOffset contents start with
  | .error e => .error e
  | .ok _ =>
    match assertValidOffset contents stop with
    | .error e => .error e
    | .ok _ =>
      if stop < start then .error "End offset should be >= start offset."
      else .ok ⟨start, substringJS contents start.toNat stop.toNat⟩

/-- The spec's independent description of a line terminator at index `i`: an
`LF`, or a `CR` not followed by an `LF` (`CR+LF` counts once, at the `LF`). -/
def isLineTerminator (s : List Char) (i : Nat) : Bool :=
  s[i]? == some '\n' || (s[i]? == some '\r' && s[i + 1]? != some '\n')

/-- The number of line-start entries that are `≤ o` (the "1-based count of
preceding line starts" of the spec). -/
def countLE (ls : List Nat) (o : Int) : Nat :=
  (ls.filter (fun (n : Nat) => decide ((n : Int) ≤ o))).length

/-! ## The lexer (`ClutchLexer`, the repository's lexer module) -/

inductive TokenKind where
  | IDENTIFIER | STRING | NUMBER
  | CLASS | ELSE | FALSE | FOR | IF | LET | RETURN | SUPER | THIS | TRUE | WHILE
  | ARROW | LEFT_PAREN | RIGHT_PAREN | LEFT_CURLY | RIGHT_CURLY
  | PERIOD | PLUS | PLUS_BY | MINUS | MINUS_BY | STAR | STAR_BY | SLASH | SLASH_BY
  | MODULUS | MODULUS_BY | ASSIGN | EQUALS | NOT_EQUALS | IDENTICAL | NOT_IDENTICAL
  | GREATER_THAN | GREATER_THAN_OR_EQUAL | LESS_THAN | LESS_THAN_OR_EQUAL
  | LOGICAL_OR | OR | LOGICAL_AND | AND | LOGICAL_XOR | NEGATE | LOGICAL_NOT
  | INCREMENT | DECREMENT | LEFT_SHIFT | RIGHT_SHIFT
  | EOF
deriving DecidableEq

/-- A line-comment record (`IComment`): lexeme and offset. -/
structure IComment where
  lexeme : List Char
  offset : Nat
deriving DecidableEq

/-- A scanned token (`Token`/`IToken`). -/
structure Token where
  kind : TokenKind
  lexeme : List Char
  comments : List IComment
  offset : Nat
deriving DecidableEq

/-- One recorded call to the error reporter: the offset of the one-character
span `[offset, offset+1)` passed to `onError`, and the message. -/
structure LexErr where
  offset : Nat
  msg : String
deriving DecidableEq

/-- The mutable lexer state: `cursor` is the scanner's `position`, `anchor` is
the lexer's own `position` field (the lexeme anchor), `buf` is
`lastComments`, and `errs` records the calls made to a non-raising `onError`
reporter, in order. -/
structure St where
  cursor : Nat
  anchor : Nat
  buf : List IComment
  errs : List LexErr
deriving DecidableEq

/-- `StringScanner.match(charCode)`: advance on a match; a read past the end
(`NaN` in JS) never matches. -/
def matchC (p : List Char) (cur : Nat) (c : Char) : Bool × Nat :=
  if p[cur]? = some c then (true, cur + 1) else (false, cur)

/-- `ClutchLexer.substring()`: the slice `[anchor, cursor)` of the program,
advancing the anchor to the cursor. -/
def lexSubstring (p : List Char) (st : St) : List Char × St :=
  (substringJS p st.anchor st.cursor, { st with anchor := st.cursor })

/-- `ClutchLexer.createToken(kind, content?)`: the default content is
`substring()` (which advances the anchor); offset is `position -
content.length` read after that update; `clearComments()` drains the buffer
into the token. -/
def createToken (p : List Char) (st : St) (kind : TokenKind)
    (content : Option (List Char)) : Token × St :=
  match content with
  | none =>
    let s := lexSubstring p st
    (⟨kind, s.1, s.2.buf, s.2.anchor - s.1.length⟩, { s.2 with buf := [] })
  | some c =>
    (⟨kind, c, st.buf, st.anchor - c.length⟩, { st with buf := [] })

/-- JS `String.prototype.trim` whitespace, restricted to the ASCII characters
this lexer can meet. -/
def isTrimWhite (c : Char) : Bool :=
  c == ' ' || c == '\t' || c == '\n' || c == '\r' || c == '\x0b' || c == '\x0c'

/-- JS `String.prototype.trim`. -/
def trimJS (s : List Char) : List Char :=
  ((s.dropWhile isTrimWhite).reverse.dropWhile isTrimWhite).reverse

/-- `ClutchLexer.scanPredicate`'s loop: advance while the peeked character
satisfies the predicate.  Each iteration advances the cursor by one, so the
fuel `p.length - cur` supplied below reproduces the unbounded `hasNext()` loop
exactly: the fuel reaches 0 precisely when `hasNext()` turns false. -/
def scanPredicateGo (p : List Char) (pred : Char → Bool) : Nat → Nat → Nat
  | 0, cur => cur
  | fuel + 1, cur =>
    if h : cur < p.length then
      if pred p[cur] then scanPredicateGo p pred fuel (cur + 1) else cur
    else cur

/-- `ClutchLexer.scanPredicate`. -/
def scanPredicate (p : List Char) (cur : Nat) (pred : Char → Bool) : Nat :=
  scanPredicateGo p pred (p.length - cur) cur

/-- `ClutchLexer.advanceToEOL`'s loop: stop after an LF, after a CR with an
optional following LF (`CR+LF` is one DOS-style terminator), or at EOF.  Fuel
as in `scanPredicateGo`. -/
def advanceToEOLGo (p : List Char) : Nat → Nat → Nat
  | 0, cur => cur
  | fuel + 1, cur =>
    if cur < p.length then
      let m1 := matchC p cur '\n'
      if m1.1 then m1.2
      else
        let m2 := matchC p cur '\r'
        if m2.1 then (matchC p m2.2 '\n').2
        else advanceToEOLGo p fuel (cur + 1)
    else cur

/-- `ClutchLexer.advanceToEOL`. -/
def advanceToEOL (p : List Char) (cur : Nat) : Nat :=
  advanceToEOLGo p (p.length - cur) cur

/-- `ClutchLexer.scanString`'s loop (the opening quote is consumed, the anchor
still sits on it): on a closing quote, `position++`, take `substring()` and
drop its final character (the quote), and emit a STRING with that explicit
content; at EOF (= fuel 0, see `scanPredicateGo`), report `Unterminated
string` at the anchor, `position++`, and emit a STRING with the default
content. -/
def scanStringGo (p : List Char) : Nat → St → Token × St
  | 0, st =>
    let st1 : St := { st with
      errs := st.errs ++ [⟨st.anchor, "Unterminated string"⟩]
      anchor := st.anchor + 1 }
    createToken p st1 .STRING none
  | fuel + 1, st =>
    if st.cursor < p.length then
      let m := matchC p st.cursor '\''
      if m.1 then
        let st1 : St := { st with cursor := m.2, anchor := st.anchor + 1 }
        let s := lexSubstring p st1
        createToken p s.2 .STRING (some (s.1.take (s.1.length - 1)))
      else scanStringGo p fuel { st with cursor := st.cursor + 1 }
    else
      let st1 : St := { st with
        errs := st.errs ++ [⟨st.anchor, "Unterminated string"⟩]
        anchor := st.anchor + 1 }
      createToken p st1 .STRING none

/-- `ClutchLexer.scanString`. -/
def scanString (p : List Char) (st : St) : Token × St :=
  scanStringGo p (p.length - st.cursor) st

/-- `ClutchLexer.scanNumber`'s digits-and-period loop: peek, consume a period
and stop, stop before a non-digit, else advance. -/
def scanNumberLoopGo (p : List Char) : Nat → Nat → Nat
  | 0, cur => cur
  | fuel + 1, cur =>
    if cur < p.length then
      let m := matchC p cur '.'
      if m.1 then m.2
      else if p[cur]?.elim false isDigit then scanNumberLoopGo p fuel (cur + 1)
      else cur
    else cur

/-- The loop of `ClutchLexer.scanNumber`. -/
def scanNumberLoop (p : List Char) (cur : Nat) : Nat :=
  scanNumberLoopGo p (p.length - cur) cur

/-- `ClutchLexer.scanDigits`. -/
def scanDigits (p : List Char) (st : St) : Token × St :=
  createToken p { st with cursor := scanPredicate p st.cursor isDigit } .NUMBER none

/-- `ClutchLexer.scanHexNumber`. -/
def scanHexNumber (p : List Char) (st : St) : Token × St :=
  createToken p { st with cursor := scanPredicate p st.cursor isHexadecimal } .NUMBER none

/-- The tail of `ClutchLexer.scanNumber` after the hex check: the `E`/`e`
exponent check (which, per the source, jumps straight to `scanDigits`), then
the digits-and-period loop, then `scanDigits`. -/
def scanNumberTail (p : List Char) (st : St) : Token × St :=
  let mE := matchC p st.cursor 'E'
  if mE.1 then scanDigits p { st with cursor := mE.2 }
  else
    let mLow := matchC p mE.2 'e'
    if mLow.1 then scanDigits p { st with cursor := mLow.2 }
    else scanDigits p { st with cursor := scanNumberLoop p mLow.2 }

/-- `ClutchLexer.scanNumber` (the starting digit is already consumed). -/
def scanNumber (p : List Char) (st : St) (starting : Char) : Token × St :=
  if starting = '0' then
    let mX := matchC p st.cursor 'X'
    if mX.1 then scanHexNumber p { st with cursor := mX.2 }
    else
      let mx := matchC p mX.2 'x'
      if mx.1 then scanHexNumber p { st with cursor := mx.2 }
      else scanNumberTail p { st with cursor := mx.2 }
  else scanNumberTail p st

/-- The keyword table (`ClutchLexer.keywords`): it contains `false` but not
`true`, faithful to the source.  The JS lookup `keywords[lexeme]` is modelled
as a lookup among the object literal's ten own keys (the JS expression would
also find inherited `Object.prototype` members such as `constructor`, which
no token kind can represent; no claim depends on those lexemes). -/
def keywordKind (s : List Char) : Option TokenKind :=
  if s = ("class".toList) then some .CLASS
  else if s = ("else".toList) then some .ELSE
  else if s = ("false".toList) then some .FALSE
  else if s = ("for".toList) then some .FOR
  else if s = ("if".toList) then some .IF
  else if s = ("let".toList) then some .LET
  else if s = ("return".toList) then some .RETURN
  else if s = ("super".toList) then some .SUPER
  else if s = ("this".toList) then some .THIS
  else if s = ("while".toList) then some .WHILE
  else none

/-- `ClutchLexer.scanIdentifierOrKeyword`. -/
def scanIdentifierOrKeyword (p : List Char) (st : St) : Token × St :=
  let st1 : St := { st with cursor := scanPredicate p st.cursor isIdentifier }
  let s := lexSubstring p st1
  (⟨(keywordKind s.1).getD .IDENTIFIER, s.1, s.2.buf, s.2.anchor - s.1.length⟩,
    { s.2 with buf := [] })

/-- `ClutchLexer.scanSlash`.  In the comment branch the pushed record is the
object literal `{ lexeme: this.substring().trim(), offset: this.position }`:
JS evaluates the fields in order, and `substring()` mutates `this.position`
to the scanner cursor, so the recorded offset is the position one past the
consumed line terminator — not the comment's starting anchor. -/
def scanSlash (p : List Char) (st : St) : Option Token × St :=
  let m := matchC p st.cursor '/'
  if m.1 then
    let st1 : St := { st with cursor := advanceToEOL p m.2 }
    let s := lexSubstring p st1
    (none, { s.2 with buf := s.2.buf ++ [⟨trimJS s.1, s.2.anchor⟩] })
  else
    let m2 := matchC p m.2 '='
    let r := createToken p { st with cursor := m2.2 }
      (if m2.1 then TokenKind.SLASH_BY else TokenKind.SLASH) none
    (some r.1, r.2)

/-- Wrap a produced token. -/
def tokenOf (r : Token × St) : Option Token × St := (some r.1, r.2)

/-- The switch of `ClutchLexer.scanToken`, dispatching on the character read
by `advance()` (`none` models an `advance` past the end, JS `NaN`: it matches
no case and no predicate and falls to the unexpected-character report);
`st1` is the state after the `advance`. -/
def scanTokenDispatch (p : List Char) (c? : Option Char) (st1 : St) : Option Token × St :=
  match c? with
  | some '(' => tokenOf (createToken p st1 .LEFT_PAREN none)
  | some ')' => tokenOf (createToken p st1 .RIGHT_PAREN none)
  | some '{' => tokenOf (createToken p st1 .LEFT_CURLY none)
  | some '}' => tokenOf (createToken p st1 .RIGHT_CURLY none)
  | some '.' => tokenOf (createToken p st1 .PERIOD none)
  | some '+' =>
    let m1 := matchC p st1.cursor '='
    if m1.1 then tokenOf (createToken p { st1 with cursor := m1.2 } .PLUS_BY none)
    else
      let m2 := matchC p m1.2 '+'
      tokenOf (createToken p { st1 with cursor := m2.2 }
        (if m2.1 then .INCREMENT else .PLUS) none)
  | some '-' =>
    let m1 := matchC p st1.cursor '>'
    if m1.1 then tokenOf (createToken p { st1 with cursor := m1.2 } .ARROW none)
    else
      let m2 := matchC p m1.2 '='
      if m2.1 then tokenOf (createToken p { st1 with cursor := m2.2 } .MINUS_BY none)
      else
        let m3 := matchC p m2.2 '-'
        tokenOf (createToken p { st1 with cursor := m3.2 }
          (if m3.1 then .DECREMENT else .MINUS) none)
  | some '*' =>
    let m1 := matchC p st1.cursor '='
    tokenOf (createToken p { st1 with cursor := m1.2 }
      (if m1.1 then .STAR_BY else .STAR) none)
  | some '=' =>
    let m1 := matchC p st1.cursor '='
    if m1.1 then
      let m2 := matchC p m1.2 '='
      tokenOf (createToken p { st1 with cursor := m2.2 }
        (if m2.1 then .IDENTICAL else .EQUALS) none)
    else tokenOf (createToken p { st1 with cursor := m1.2 } .ASSIGN none)
  | some '<' =>
    let m1 := matchC p st1.cursor '='
    if m1.1 then
      tokenOf (createToken p { st1 with cursor := m1.2 } .LESS_THAN_OR_EQUAL none)
    else
      let m2 := matchC p m1.2 '<'
      tokenOf (createToken p { st1 with cursor := m2.2 }
        (if m2.1 then .LEFT_SHIFT else .LESS_THAN) none)
  | some '>' =>
    let m1 := matchC p st1.cursor '='
    if m1.1 then
      tokenOf (createToken p { st1 with cursor := m1.2 } .GREATER_THAN_OR_EQUAL none)
    else
      let m2 := matchC p m1.2 '>'
      tokenOf (createToken p { st1 with cursor := m2.2 }
        (if m2.1 then .RIGHT_SHIFT else .GREATER_THAN) none)
  | some '/' => scanSlash p st1
  | some '\'' => tokenOf (scanString p st1)
  | some '|' =>
    let m1 := matchC p st1.cursor '|'
    tokenOf (createToken p { st1 with cursor := m1.2 }
      (if m1.1 then .OR else .LOGICAL_OR) none)
  | some '&' =>
    let m1 := matchC p st1.cursor '&'
    tokenOf (createToken p { st1 with cursor := m1.2 }
      (if m1.1 then .AND else .LOGICAL_AND) none)
  | some '~' => tokenOf (createToken p st1 .LOGICAL_NOT none)
  | some '^' => tokenOf (createToken p st1 .LOGICAL_XOR none)
  | some '!' =>
    let m1 := matchC p st1.cursor '='
    if m1.1 then
      let m2 := matchC p m1.2 '='
      tokenOf (createToken p { st1 with cursor := m2.2 }
        (if m2.1 then .NOT_IDENTICAL else .NOT_EQUALS) none)
    else tokenOf (createToken p { st1 with cursor := m1.2 } .NEGATE none)
  | some c =>
    if isWhiteSpace c then (none, { st1 with anchor := st1.cursor })
    else if isDigit c then tokenOf (scanNumber p st1 c)
    else if isIdentifierStart c then tokenOf (scanIdentifierOrKeyword p st1)
    else (none, { st1 with errs := st1.errs ++ [⟨st1.anchor, "Unexpected character"⟩] })
  | none =>
    (none, { st1 with errs := st1.errs ++ [⟨st1.anchor, "Unexpected character"⟩] })

/-- `ClutchLexer.scanToken`: `advance()` one character and dispatch. -/
def scanToken (p : List Char) (st : St) : Option Token × St :=
  scanTokenDispatch p p[st.cursor]? { st with cursor := st.cursor + 1 }

/-- `ClutchLexer.scanProgram`'s while loop, followed by the final synthetic
EOF token with explicit empty content.  `scanToken` always advances the
cursor, so the loop runs at most `p.length` times; `tokenize` supplies fuel
`p.length + 1`, and `scanAllGo_fuel` below shows any sufficient fuel computes
the unbounded loop. -/
def scanAllGo (p : List Char) : Nat → St → List Token × St
  | 0, st =>
    let r := createToken p st .EOF (some [])
    ([r.1], r.2)
  | fuel + 1, st =>
    if st.cursor < p.length then
      let r := scanToken p st
      let rest := scanAllGo p fuel r.2
      ((match r.1 with
        | some t => t :: rest.1
        | none => rest.1), rest.2)
    else
      let r := createToken p st .EOF (some [])
      ([r.1], r.2)

/-- `tokenize(program)` with a non-raising, recording error reporter: the
token list and the final state (`errs` holds the reported lexical errors). -/
def tokenizeFull (p : List Char) : List Token × St :=
  scanAllGo p (p.length + 1) ⟨0, 0, [], []⟩

/-- The token list of `tokenize(program)`. -/
def tokenize (p : List Char) : List Token :=
  (tokenizeFull p).1

/-- The lexical errors reported during `tokenize(program)`. -/
def tokenizeErrors (p : List Char) : List LexErr :=
  (tokenizeFull p).2.errs

/-- Specification bundle for a lexer call that returns a token: the cursor
does not move back and stays in bounds, the anchor lands on the cursor, the
comment buffer is drained into the token, the token starts at or after the
anchor and ends (offset + lexeme length) exactly at the new anchor, and every
non-STRING token's lexeme is literally the program slice at its offset. -/
def TokRes (p : List Char) (st : St) (r : Token × St) : Prop :=
  st.cursor ≤ r.2.cursor ∧ r.2.cursor ≤ p.length ∧ r.2.anchor = r.2.cursor ∧
  r.2.buf = [] ∧ r.1.comments = st.buf ∧ st.anchor ≤ r.1.offset ∧
  r.1.offset + r.1.lexeme.length = r.2.anchor ∧
  (r.1.kind ≠ .STRING → r.1.lexeme = substringJS p r.1.offset (r.1.offset + r.1.lexeme.length))

/-- Specification bundle for one `scanToken` step: the cursor strictly
advances and stays in bounds, the anchor does not move back and stays at or
below the cursor; a produced token satisfies the `TokRes` facts, and a
tokenless step only appends to the comment buffer. -/
def ScanTokenOK (p : List Char) (st : St) (r : Option Token × St) : Prop :=
  st.cursor < r.2.cursor ∧ r.2.cursor ≤ p.length ∧
  st.anchor ≤ r.2.anchor ∧ r.2.anchor ≤ r.2.cursor ∧
  (match r.1 with
   | some t => r.2.buf = [] ∧ t.comments = st.buf ∧ st.anchor ≤ t.offset ∧
       t.offset + t.lexeme.length = r.2.anchor ∧
       (t.kind ≠ .STRING →
         t.lexeme = substringJS p t.offset (t.offset + t.lexeme.length))
   | none => ∃ push, r.2.buf = st.buf ++ push)

/-- The comment records appended to `lastComments` by one `scanToken` step:
the suffix of the resulting buffer past the incoming buffer (a step that
produces a token drains the buffer and appends nothing, so this is `[]`). -/
def stepPush (p : List Char) (st : St) : List IComment :=
  (scanToken p st).2.buf.drop st.buf.length

/-- The sequence of comment records buffered during the lexer run, in order:
the concatenation of `stepPush` over the iterations of `scanProgram`'s loop. -/
def commentLogGo (p : List Char) : Nat → St → List IComment
  | 0, _ => []
  | fuel + 1, st =>
    if st.cursor < p.length then stepPush p st ++ commentLogGo p fuel (scanToken p st).2
    else []

/-- The comment records buffered during `tokenize p`. -/
def commentLog (p : List Char) : List IComment :=
  commentLogGo p (p.length + 1) ⟨0, 0, [], []⟩

/-- Inputs consisting only of whitespace and/or line comments: the empty
input; a whitespace character followed by such an input; or a `//` comment
running to a line terminator (`LF`, bare `CR` not followed by `LF`, or
`CR+LF`) followed by such an input; or a `//` comment running to EOF. -/
inductive WsComments : List Char → Prop where
  | nil : WsComments []
  | ws {c : Char} {rest : List Char} : isWhiteSpace c = true → WsComments rest →
      WsComments (c :: rest)
  | commentEol {body term rest : List Char} :
      (∀ ch ∈ body, ch ≠ '\n' ∧ ch ≠ '\r') →
      (term = ['\n'] ∨ (term = ['\r'] ∧ rest.head? ≠ some '\n') ∨ term = ['\r', '\n']) →
      WsComments rest → WsComments ('/' :: '/' :: (body ++ term ++ rest))
  | commentEof {body : List Char} : (∀ ch ∈ body, ch ≠ '\n' ∧ ch ≠ '\r') →
      WsComments ('/' :: '/' :: body)

/-! ## Lemmas about the line-start table -/

theorem getLast?_cons_some {α : Type _} {l : List α} {v : α} (h : l.getLast? = some v) (a : α) :
    (a :: l).getLast? = some v := by
  cases l with
  | nil => simp at h
  | cons b t => rw [List.getLast?_cons_cons]; exact h

theorem lineStartsGo_eq (t : List Char) : ∀ (i : Nat) (s : List Char), s.drop i = t →
    lineStartsGo t i =
      ((List.range' i t.length).filter (fun j => isLineTerminator s j)).map (· + 1) := by
  induction t with
  | nil => intro i s _; simp [lineStartsGo]
  | cons c rest ih =>
    intro i s hdrop
    have hget : s[i]? = some c := by
      have h0 : (s.drop i)[0]? = some c := by rw [hdrop]; simp
      rwa [List.getElem?_drop, Nat.add_zero] at h0
    have hget1 : s[i + 1]? = rest.head? := by
      have h1 : (s.drop i)[1]? = rest.head? := by rw [hdrop]; cases rest <;> simp
      rwa [List.getElem?_drop] at h1
    have hdrop1 : s.drop (i + 1) = rest := by
      have h2 := congrArg (List.drop 1) hdrop
      rw [List.drop_drop] at h2
      simpa [Nat.add_comm] using h2
    have hterm : isLineTerminator s i =
        ((if c == '\r' && rest.head? != some '\n' then '\n' else c) == '\n') := by
      rw [isLineTerminator, hget, hget1]
      by_cases h1 : c = '\r' <;> by_cases h2 : rest.head? = some '\n' <;>
        simp [h1, h2]
    have hLHS : lineStartsGo (c :: rest) i =
        if ((if c == '\r' && rest.head? != some '\n' then '\n' else c) == '\n')
        then (i + 1) :: lineStartsGo rest (i + 1) else lineStartsGo rest (i + 1) := rfl
    rw [hLHS, ← hterm, ih (i + 1) s hdrop1, List.length_cons, List.range'_succ,
      List.filter_cons]
    cases hb : isLineTerminator s i <;> simp [hb]

theorem computeLineStarts_eq (s : List Char) :
    computeLineStarts s =
      ((List.range s.length).filter (fun j => isLineTerminator s j)).map (· + 1) := by
  rw [computeLineStarts, lineStartsGo_eq s 0 s (by simp), List.range_eq_range']

theorem computeLineStarts_pairwise (s : List Char) :
    List.Pairwise (· < ·) (computeLineStarts s) := by
  rw [computeLineStarts_eq]
  have h1 : List.Pairwise (· < ·) (List.range s.length) := List.pairwise_lt_range _
  have h2 := h1.filter (fun j => isLineTerminator s j)
  exact List.pairwise_map.mpr (h2.imp (by omega))

theorem computeLineStarts_mem (s : List Char) (n : Nat) (h : n ∈ computeLineStarts s) :
    1 ≤ n ∧ n ≤ s.length := by
  rw [computeLineStarts_eq] at h
  obtain ⟨j, hj, rfl⟩ := List.mem_map.mp h
  have := List.mem_range.mp (List.mem_of_mem_filter hj)
  omega

theorem getLast?_of_sorted_max : ∀ (L : List Nat), List.Pairwise (· < ·) L →
    ∀ x, x ∈ L → (∀ y ∈ L, y ≤ x) → L.getLast? = some x := by
  intro L
  induction L with
  | nil => intro _ x hx _; simp at hx
  | cons a t ih =>
    intro hp x hx hmax
    cases t with
    | nil =>
      rcases List.mem_singleton.mp hx with rfl
      rfl
    | cons b t' =>
      have hab : a < b := (List.pairwise_cons.mp hp).1 b (by simp)
      have hxbt : x ∈ b :: t' := by
        rcases List.mem_cons.mp hx with rfl | hx'
        · have := hmax b (by simp)
          omega
        · exact hx'
      rw [List.getLast?_cons_cons]
      exact ih (List.pairwise_cons.mp hp).2 x hxbt
        (fun y hy => hmax y (List.mem_cons_of_mem a hy))

theorem computeLineStarts_getLast (s : List Char) (c : Char)
    (hlast : s.getLast? = some c) (hc : c = '\n' ∨ c = '\r') :
    (computeLineStarts s).getLast? = some s.length := by
  have hne : s ≠ [] := by intro h; subst h; simp at hlast
  have hlen : 0 < s.length := List.length_pos.mpr hne
  have hgl : s[s.length - 1]? = some c := by
    rw [← List.getLast?_eq_getElem?]; exact hlast
  have hterm : isLineTerminator s (s.length - 1) = true := by
    rcases hc with hc | hc <;> subst hc
    · simp [isLineTerminator, hgl]
    · have hnone : s[s.length - 1 + 1]? = none := by
        apply List.getElem?_eq_none
        omega
      simp [isLineTerminator, hgl, hnone]
  have hmem : s.length ∈ computeLineStarts s := by
    rw [computeLineStarts_eq]
    refine List.mem_map.mpr ⟨s.length - 1, ?_, by omega⟩
    exact List.mem_filter.mpr ⟨List.mem_range.mpr (by omega), hterm⟩
  exact getLast?_of_sorted_max _ (computeLineStarts_pairwise s) _ hmem
    (fun y hy => (computeLineStarts_mem s y hy).2)

/-! ## Lemmas about the binary search -/

theorem binarySearchGo_bounds (ls : List Nat) (o : Int) :
    ∀ (fuel : Nat) (mn mx : Int), binarySearchGo ls o fuel mn mx ≤ mx ∧
      (mn ≤ mx → mn ≤ binarySearchGo ls o fuel mn mx) := by
  intro fuel
  induction fuel with
  | zero =>
    intro mn mx
    simp only [binarySearchGo]
    exact ⟨le_refl _, fun h => h⟩
  | succ n ih =>
    intro mn mx
    simp only [binarySearchGo]
    split
    case isTrue hlt =>
      split
      · have h := ih mn (mn + (mx - mn) / 2)
        exact ⟨by have := h.1; omega, fun _ => h.2 (by omega)⟩
      · have h := ih (mn + (mx - mn) / 2 + 1) mx
        exact ⟨h.1, fun _ => by have := h.2 (by omega); omega⟩
    case isFalse hge =>
      exact ⟨le_refl _, fun h => h⟩

theorem binarySearchGo_inv (ls : List Nat) (o : Int)
    (hsort : List.Pairwise (· < ·) ls) :
    ∀ (fuel : Nat) (mn mx : Int), 0 ≤ mn → mn ≤ mx → mx < (ls.length : Int) →
      (mx - mn).toNat ≤ fuel →
      (∀ k : Nat, k < mn.toNat → ∀ v, ls[k]? = some v → (v : Int) ≤ o) →
      (∀ k : Nat, mx.toNat ≤ k → k < ls.length → ∀ v, ls[k]? = some v → o < (v : Int)) →
      0 ≤ binarySearchGo ls o fuel mn mx ∧
        binarySearchGo ls o fuel mn mx < (ls.length : Int) ∧
        (∀ k : Nat, k < (binarySearchGo ls o fuel mn mx).toNat →
          ∀ v, ls[k]? = some v → (v : Int) ≤ o) ∧
        (∀ k : Nat, (binarySearchGo ls o fuel mn mx).toNat ≤ k → k < ls.length →
          ∀ v, ls[k]? = some v → o < (v : Int)) := by
  intro fuel
  induction fuel with
  | zero =>
    intro mn mx h0 h1 h2 h3 hlo hhi
    have hmm : mn = mx := by omega
    subst hmm
    simp only [binarySearchGo]
    exact ⟨h0, h2, hlo, hhi⟩
  | succ n ih =>
    intro mn mx h0 h1 h2 h3 hlo hhi
    simp only [binarySearchGo]
    split
    case isTrue hlt =>
      have hhNat : (mn + (mx - mn) / 2).toNat < ls.length := by omega
      obtain ⟨v, hv⟩ : ∃ v, ls[(mn + (mx - mn) / 2).toNat]? = some v :=
        ⟨_, List.getElem?_eq_getElem hhNat⟩
      have hvval : v = ls[(mn + (mx - mn) / 2).toNat] := by
        have h := List.getElem?_eq_getElem hhNat
        rw [h] at hv
        exact (Option.some.inj hv).symm
      have hject : jsIndex ls (mn + (mx - mn) / 2) = some v := by
        rw [jsIndex, if_neg (by omega)]
        exact hv
      rw [hject]
      by_cases hcmp : o < (v : Int)
      · rw [if_pos (by simp [jsLtOpt, hcmp])]
        apply ih mn (mn + (mx - mn) / 2) h0 (by omega) (by omega) (by omega) hlo
        intro k hk1 hk2 w hw
        have hwval : w = ls[k] := by
          have h := List.getElem?_eq_getElem hk2
          rw [h] at hw
          exact (Option.some.inj hw).symm
        rcases Nat.eq_or_lt_of_le hk1 with heq | hlt2
        · have hw' : ls[(mn + (mx - mn) / 2).toNat]? = some w := by rw [heq]; exact hw
          rw [hv] at hw'
          have := Option.some.inj hw'
          omega
        · have hpw := List.pairwise_iff_getElem.mp hsort _ k hhNat hk2 hlt2
          omega
      · rw [if_neg (by simp [jsLtOpt, hcmp])]
        apply ih (mn + (mx - mn) / 2 + 1) mx (by omega) (by omega) h2 (by omega)
        · intro k hk1 w hw
          have hkl : k < ls.length := by omega
          have hwval : w = ls[k] := by
            have h := List.getElem?_eq_getElem hkl
            rw [h] at hw
            exact (Option.some.inj hw).symm
          have hk1' : k ≤ (mn + (mx - mn) / 2).toNat := by omega
          rcases Nat.eq_or_lt_of_le hk1' with heq | hlt2
          · have hw' : ls[(mn + (mx - mn) / 2).toNat]? = some w := by rw [← heq]; exact hw
            rw [hv] at hw'
            have := Option.some.inj hw'
            omega
          · have hpw := List.pairwise_iff_getElem.mp hsort k _ hkl hhNat hlt2
            omega
        · exact hhi
    case isFalse hge =>
      have hmm : mn = mx := by omega
      subst hmm
      exact ⟨h0, h2, hlo, hhi⟩

theorem countLE_of_cut (ls : List Nat) (o : Int) (r : Nat) (hr : r ≤ ls.length)
    (hlo : ∀ k : Nat, k < r → ∀ v, ls[k]? = some v → (v : Int) ≤ o)
    (hhi : ∀ k : Nat, r ≤ k → k < ls.length → ∀ v, ls[k]? = some v → o < (v : Int)) :
    countLE ls o = r := by
  have hsplit : ls.filter (fun (n : Nat) => decide ((n : Int) ≤ o)) =
      (ls.take r).filter (fun (n : Nat) => decide ((n : Int) ≤ o)) ++
        (ls.drop r).filter (fun (n : Nat) => decide ((n : Int) ≤ o)) := by
    rw [← List.filter_append, List.take_append_drop]
  have h1 : (ls.take r).filter (fun (n : Nat) => decide ((n : Int) ≤ o)) = ls.take r := by
    apply List.filter_eq_self.mpr
    intro a ha
    obtain ⟨k, hk, hget⟩ := List.getElem_of_mem ha
    have hk' : k < r := by
      have := List.length_take r ls
      omega
    have hkl : k < ls.length := by omega
    rw [List.getElem_take] at hget
    have := hlo k hk' (ls[k]) (List.getElem?_eq_getElem hkl)
    simp only [decide_eq_true_eq]
    rw [← hget]
    exact this
  have h2 : (ls.drop r).filter (fun (n : Nat) => decide ((n : Int) ≤ o)) = [] := by
    apply List.filter_eq_nil_iff.mpr
    intro a ha
    obtain ⟨k, hk, hget⟩ := List.getElem_of_mem ha
    have hkl : r + k < ls.length := by
      have := List.length_drop r ls
      omega
    rw [List.getElem_drop] at hget
    have := hhi (r + k) (by omega) hkl (ls[r + k]) (List.getElem?_eq_getElem hkl)
    simp only [decide_eq_true_eq]
    rw [← hget]
    omega
  rw [countLE, hsplit, List.length_append, h1, h2]
  simp [List.length_take]
  omega

theorem countLE_eq_zero_of_none (ls : List Nat) (o : Int)
    (h : ∀ n ∈ ls, o < (n : Int)) : countLE ls o = 0 := by
  rw [countLE, List.filter_eq_nil_iff.mpr ?_]
  · rfl
  · intro n hn
    simp only [decide_eq_true_eq]
    have := h n hn
    omega

theorem countLE_eq_length_of_all (ls : List Nat) (o : Int)
    (h : ∀ n ∈ ls, (n : Int) ≤ o) : countLE ls o = ls.length := by
  rw [countLE, List.filter_eq_self.mpr ?_]
  intro n hn
  simp only [decide_eq_true_eq]
  exact h n hn

theorem computeLine_ok_bounds (contents : List Char) (o : Int) (l : Int)
    (h : computeLine contents o = .ok l) :
    -1 ≤ l ∧ l ≤ ((computeLineStarts contents).length : Int) := by
  unfold computeLine at h
  cases hassert : assertValidOffset contents o with
  | error e => rw [hassert] at h; exact absurd h (by simp)
  | ok u =>
    rw [hassert] at h
    dsimp only at h
    split at h
    · have := Except.ok.inj h
      omega
    · split at h
      · have := Except.ok.inj h
        omega
      · have hval := Except.ok.inj h
        have hb := binarySearchGo_bounds (computeLineStarts contents) o
          (computeLineStarts contents).length 0 (((computeLineStarts contents).length : Int) - 1)
        rw [binarySearch] at hval
        rcases Nat.eq_zero_or_pos (computeLineStarts contents).length with hz | hp
        · rw [hz] at hval ⊢
          simp only [binarySearchGo] at hval
          omega
        · have h1 := hb.1
          have h2 := hb.2 (by omega)
          omega

/-! ## Claim theorems about `SourceFile` -/

/-- Claim C3, counterexample: for contents `"a"` (no line terminator, so an
empty line-start table) and offset `0`, `computeLine` returns `-1`, which is
neither `0`, nor the table size, nor the 1-based count of line starts `≤ 0`
(all of which are `0` here) — the claim's three cases all fail. -/
theorem computeLine_counterexample :
    computeLine ("a".toList) 0 = .ok (-1) ∧
      (-1 : Int) ≠ 0 ∧
      (-1 : Int) ≠ ((computeLineStarts ("a".toList)).length : Int) ∧
      (-1 : Int) ≠ ((countLE (computeLineStarts ("a".toList)) 0 : Nat) : Int) := by
  refine ⟨rfl, by decide, by decide, by decide⟩

/-- Claim C3 (amended): `computeLine` raises a range error exactly for
`o < 0` or `o > length`; for a valid offset it returns `-1` when the
line-start table is empty (contents with no line terminator), and otherwise
returns the 1-based count of line-start entries that are `≤ o` (found by
binary search), which subsumes the claim's three cases: `0` when `o` precedes
the first entry, the total number of entries when `o` is at/after the last
entry, and the binary-search count in between. -/
theorem computeLine_correct (contents : List Char) (o : Int) :
    ((∃ e, computeLine contents o = .error e) ↔
      (o < 0 ∨ (contents.length : Int) < o)) ∧
    (0 ≤ o → o ≤ (contents.length : Int) →
      (computeLineStarts contents = [] → computeLine contents o = .ok (-1)) ∧
      (computeLineStarts contents ≠ [] →
        computeLine contents o = .ok ((countLE (computeLineStarts contents) o : Nat) : Int))) := by
  have hsort := computeLineStarts_pairwise contents
  constructor
  · constructor
    · rintro ⟨e, he⟩
      by_contra hcon
      push_neg at hcon
      unfold computeLine assertValidOffset at he
      rw [if_neg (by omega), if_neg (by omega)] at he
      dsimp only at he
      split at he
      · exact absurd he (by simp)
      · split at he
        · exact absurd he (by simp)
        · exact absurd he (by simp)
    · intro h
      unfold computeLine assertValidOffset
      by_cases h0 : o < 0
      · rw [if_pos h0]
        exact ⟨_, rfl⟩
      · rw [if_neg h0, if_pos (by omega)]
        exact ⟨_, rfl⟩
  · intro h0 h1
    have hassert : assertValidOffset contents o = .ok () := by
      unfold assertValidOffset
      rw [if_neg (by omega), if_neg (by omega)]
    constructor
    · intro hnil
      unfold computeLine
      rw [hassert]
      dsimp only
      rw [hnil]
      simp [jsLtOpt, jsGeOpt, binarySearch, binarySearchGo]
    · intro hne
      obtain ⟨a, tl, hls⟩ : ∃ a tl, computeLineStarts contents = a :: tl := by
        cases hcl : computeLineStarts contents with
        | nil => exact absurd hcl hne
        | cons a tl => exact ⟨a, tl, rfl⟩
      have hlen : 0 < (computeLineStarts contents).length := by rw [hls]; simp
      have hlastidx : (computeLineStarts contents).length - 1 <
          (computeLineStarts contents).length := by omega
      obtain ⟨v, hv⟩ : ∃ v,
          (computeLineStarts contents)[(computeLineStarts contents).length - 1]? = some v :=
        ⟨_, List.getElem?_eq_getElem hlastidx⟩
      have hvval : v = (computeLineStarts contents)[(computeLineStarts contents).length - 1] := by
        have h := List.getElem?_eq_getElem hlastidx
        rw [h] at hv
        exact (Option.some.inj hv).symm
      unfold computeLine
      rw [hassert]
      dsimp only
      split
      case isTrue hlt =>
        rw [hls] at hlt
        simp only [List.getElem?_cons_zero, jsLtOpt, decide_eq_true_eq] at hlt
        have hcnt : countLE (computeLineStarts contents) o = 0 := by
          apply countLE_eq_zero_of_none
          intro n hn
          rw [hls] at hn hsort
          rcases List.mem_cons.mp hn with rfl | hn'
          · omega
          · have := (List.pairwise_cons.mp hsort).1 n hn'
            omega
        rw [hcnt]
        simp
      case isFalse hlt =>
        split
        case isTrue hge =>
          rw [hv] at hge
          simp only [jsGeOpt, decide_eq_true_eq] at hge
          have hcnt : countLE (computeLineStarts contents) o =
              (computeLineStarts contents).length := by
            apply countLE_eq_length_of_all
            intro n hn
            obtain ⟨k, hk, hget⟩ := List.getElem_of_mem hn
            have hkle : k ≤ (computeLineStarts contents).length - 1 := by omega
            rcases Nat.eq_or_lt_of_le hkle with heq | hlt2
            · subst heq
              rw [← hget]
              rw [hvval] at hge
              exact hge
            · have := List.pairwise_iff_getElem.mp hsort k _ hk hlastidx hlt2
              rw [← hget]
              omega
          rw [hcnt]
        case isFalse hge =>
          rw [hv] at hge
          simp only [jsGeOpt, decide_eq_true_eq] at hge
          have hinv := binarySearchGo_inv (computeLineStarts contents) o hsort
            (computeLineStarts contents).length 0
            (((computeLineStarts contents).length : Int) - 1)
            (by omega) (by omega) (by omega) (by omega)
            (by intro k hk _ _; simp at hk)
            (by
              intro k hk1 hk2 w hw
              have hkeq : k = (computeLineStarts contents).length - 1 := by omega
              rw [hkeq, hv] at hw
              have := Option.some.inj hw
              omega)
          obtain ⟨hr0, hrlen, hrlo, hrhi⟩ := hinv
          have hcut := countLE_of_cut (computeLineStarts contents) o
            (binarySearchGo (computeLineStarts contents) o
              (computeLineStarts contents).length 0
              (((computeLineStarts contents).length : Int) - 1)).toNat
            (by omega) hrlo hrhi
          rw [binarySearch, hcut, Int.toNat_of_nonneg hr0]

/-- Claim C3, witness for the amended claim at concrete inputs. -/
theorem computeLine_correct_witness :
    (¬((3 : Int) < 0 ∨ (("ab\ncd\n".toList).length : Int) < 3)) ∧
      computeLineStarts ("ab\ncd\n".toList) ≠ [] ∧
      computeLine ("ab\ncd\n".toList) 3 = .ok 1 ∧
      countLE (computeLineStarts ("ab\ncd\n".toList)) 3 = 1 := by
  refine ⟨by decide, by decide, ?_, by decide⟩
  have h := ((computeLine_correct ("ab\ncd\n".toList) 3).2 (by decide) (by decide)).2
    (by decide)
  rw [h]
  rfl

/-- Claim C4: the line-start table is exactly `i + 1` for each line-terminator
index `i` in order (`LF`, or bare `CR`, with `CR+LF` counting once at the
`LF`); its size is the number of terminators, and a trailing newline yields a
final entry equal to `length`. -/
theorem computeLineStarts_correct (s : List Char) :
    computeLineStarts s =
      ((List.range s.length).filter (fun i => isLineTerminator s i)).map (· + 1) ∧
    (computeLineStarts s).length =
      ((List.range s.length).filter (fun i => isLineTerminator s i)).length ∧
    (∀ c, s.getLast? = some c → (c = '\n' ∨ c = '\r') →
      (computeLineStarts s).getLast? = some s.length) := by
  refine ⟨computeLineStarts_eq s, ?_, fun c h1 h2 => computeLineStarts_getLast s c h1 h2⟩
  rw [computeLineStarts_eq, List.length_map]

/-- Claim C4, witness at `"ab\r\nc\n"`: terminators at indices 3 (the `LF` of
`CR+LF`) and 5; table `[4, 6]`; trailing newline gives final entry 6 = length. -/
theorem computeLineStarts_correct_witness :
    computeLineStarts ("ab\r\nc\n".toList) = [4, 6] ∧
      (computeLineStarts ("ab\r\nc\n".toList)).getLast? =
        some (("ab\r\nc\n".toList).length) := by
  refine ⟨by decide, ?_⟩
  exact (computeLineStarts_correct ("ab\r\nc\n".toList)).2.2 '\n' (by decide) (Or.inl rfl)

/-- Claim C7: `span` fails with a range error exactly when an endpoint is
negative, exceeds the length, or `stop < start`; otherwise it returns the span
with offset `start` and the contents slice `[start, stop)`.  (The model is a
pure function of the contents: `SourceFile.contents` and `length` are readonly
and never mutated by `span`.) -/
theorem assertValidOffset_ok (contents : List Char) (o : Int)
    (h0 : 0 ≤ o) (h1 : o ≤ (contents.length : Int)) :
    assertValidOffset contents o = .ok () := by
  unfold assertValidOffset
  rw [if_neg (by omega), if_neg (by omega)]

theorem assertValidOffset_err (contents : List Char) (o : Int)
    (h : o < 0 ∨ (contents.length : Int) < o) :
    ∃ e, assertValidOffset contents o = .error e := by
  unfold assertValidOffset
  rcases h with h | h
  · rw [if_pos h]
    exact ⟨_, rfl⟩
  · by_cases h0 : o < 0
    · rw [if_pos h0]
      exact ⟨_, rfl⟩
    · rw [if_neg h0, if_pos h]
      exact ⟨_, rfl⟩

theorem span_correct (contents : List Char) (start stop : Int) :
    ((∃ e, span contents start stop = .error e) ↔
      (start < 0 ∨ stop < 0 ∨ (contents.length : Int) < start ∨
        (contents.length : Int) < stop ∨ stop < start)) ∧
    (0 ≤ start → 0 ≤ stop → start ≤ (contents.length : Int) →
      stop ≤ (contents.length : Int) → start ≤ stop →
      span contents start stop =
        .ok ⟨start, substringJS contents start.toNat stop.toNat⟩) := by
  have hok : ¬(start < 0 ∨ stop < 0 ∨ (contents.length : Int) < start ∨
      (contents.length : Int) < stop ∨ stop < start) →
      span contents start stop =
        .ok ⟨start, substringJS contents start.toNat stop.toNat⟩ := by
    intro hcon
    push_neg at hcon
    obtain ⟨g1, g2, g3, g4, g5⟩ := hcon
    unfold span
    rw [assertValidOffset_ok contents start (by omega) (by omega)]
    dsimp only
    rw [assertValidOffset_ok contents stop (by omega) (by omega)]
    dsimp only
    rw [if_neg (by omega)]
  constructor
  · constructor
    · rintro ⟨e, he⟩
      by_contra hcon
      rw [hok hcon] at he
      exact absurd he (by simp)
    · intro h
      unfold span
      by_cases hs1 : start < 0 ∨ (contents.length : Int) < start
      · obtain ⟨e, he⟩ := assertValidOffset_err contents start hs1
        rw [he]
        exact ⟨_, rfl⟩
      · push_neg at hs1
        rw [assertValidOffset_ok contents start (by omega) (by omega)]
        dsimp only
        by_cases hs2 : stop < 0 ∨ (contents.length : Int) < stop
        · obtain ⟨e, he⟩ := assertValidOffset_err contents stop hs2
          rw [he]
          exact ⟨_, rfl⟩
        · push_neg at hs2
          rw [assertValidOffset_ok contents stop (by omega) (by omega)]
          dsimp only
          rw [if_pos (by omega)]
          exact ⟨_, rfl⟩
  · intro g1 g2 g3 g4 g5
    exact hok (by omega)

/-- Claim C7, witness: a valid call and an invalid one. -/
theorem span_correct_witness :
    span ("hello".toList) 1 3 = .ok ⟨1, "el".toList⟩ ∧
      (∃ e, span ("hello".toList) (-1) 3 = .error e) := by
  constructor
  · have h := (span_correct ("hello".toList) 1 3).2 (by decide) (by decide)
      (by decide) (by decide) (by decide)
    rw [h]
    rfl
  · exact (span_correct ("hello".toList) (-1) 3).1.mpr (Or.inl (by decide))

/-- Claim C8: for a valid offset, `computeColumn` returns `o` minus the
line-start entry at index `computeLine o - 1` when `computeLine o ≥ 1` (the
entry exists), and returns `o` itself otherwise (first line, or the empty
table where `computeLine` is `-1`). -/
theorem computeColumn_correct (contents : List Char) (o : Int)
    (h0 : 0 ≤ o) (h1 : o ≤ (contents.length : Int)) :
    ∃ l, computeLine contents o = .ok l ∧
      (1 ≤ l → ∃ v, (computeLineStarts contents)[(l - 1).toNat]? = some v ∧
        computeColumn contents o = .ok (o - (v : Int))) ∧
      (l < 1 → computeColumn contents o = .ok o) := by
  have hassert : assertValidOffset contents o = .ok () := by
    unfold assertValidOffset
    rw [if_neg (by omega), if_neg (by omega)]
  obtain ⟨l, hl⟩ : ∃ l, computeLine contents o = .ok l := by
    unfold computeLine
    rw [hassert]
    dsimp only
    split
    · exact ⟨_, rfl⟩
    · split
      · exact ⟨_, rfl⟩
      · exact ⟨_, rfl⟩
  refine ⟨l, hl, ?_, ?_⟩
  · intro hl1
    have hb := computeLine_ok_bounds contents o l hl
    have hidx : (l - 1).toNat < (computeLineStarts contents).length := by omega
    obtain ⟨v, hv⟩ : ∃ v, (computeLineStarts contents)[(l - 1).toNat]? = some v :=
      ⟨_, List.getElem?_eq_getElem hidx⟩
    refine ⟨v, hv, ?_⟩
    unfold computeColumn
    rw [hassert]
    dsimp only
    rw [hl]
    dsimp only
    rw [jsIndex, if_neg (by omega), hv]
    rfl
  · intro hl1
    unfold computeColumn
    rw [hassert]
    dsimp only
    rw [hl]
    dsimp only
    rw [jsIndex, if_pos (by omega)]
    simp

/-- Claim C8, witness at `"a\nb"`, offset 3: line 1, line start 2, column 1. -/
theorem computeColumn_correct_witness :
    (0 : Int) ≤ 3 ∧ (3 : Int) ≤ (("a\nb".toList).length : Int) ∧
      (∃ l, computeLine ("a\nb".toList) 3 = .ok l ∧
        (1 ≤ l → ∃ v, (computeLineStarts ("a\nb".toList))[(l - 1).toNat]? = some v ∧
          computeColumn ("a\nb".toList) 3 = .ok (3 - (v : Int))) ∧
        (l < 1 → computeColumn ("a\nb".toList) 3 = .ok 3)) :=
  ⟨by decide, by decide, computeColumn_correct ("a\nb".toList) 3 (by decide) (by decide)⟩


/-! ## Claim theorems about the lexer: concrete scenarios -/

/-- Claim C5: `=` and `!` disambiguate by two-level maximal munch;
`a === b !== c` yields IDENTIFIER, IDENTICAL, IDENTIFIER, NOT_IDENTICAL,
IDENTIFIER, EOF with these lexemes and offsets. -/
theorem tokenize_identical_example :
    tokenize ("a === b !== c".toList) =
      [⟨.IDENTIFIER, "a".toList, [], 0⟩,
       ⟨.IDENTICAL, "===".toList, [], 2⟩,
       ⟨.IDENTIFIER, "b".toList, [], 6⟩,
       ⟨.NOT_IDENTICAL, "!==".toList, [], 8⟩,
       ⟨.IDENTIFIER, "c".toList, [], 12⟩,
       ⟨.EOF, [], [], 13⟩] := rfl

/-- Claim C9, counterexample: for `// hi\nlet x = 1` the comment attached to
the LET token has offset 6 — the scanner position one past the consumed line
terminator — not the anchor offset 0 where the comment starts, because the JS
object literal evaluates `lexeme: this.substring()` first, which moves
`this.position` to the cursor before `offset: this.position` reads it. -/
theorem comment_offset_counterexample :
    (tokenize ("// hi\nlet x = 1".toList)).head? =
      some ⟨.LET, "let".toList, [⟨"// hi".toList, 6⟩], 6⟩ ∧
    (∀ t ∈ tokenize ("// hi\nlet x = 1".toList), ∀ c ∈ t.comments, c.offset ≠ 0) := by
  exact ⟨rfl, by decide⟩

/-- Claim C9 (amended): the slash handler consumes the comment to the line
terminator (or EOF), records the trimmed lexeme with offset equal to the
scanner position just past the consumed terminator, emits no token, and the
record is attached to the next significant token: `// hi\nlet x = 1` yields
`LET("let")` at offset 6 carrying the single comment `⟨"// hi", 6⟩`, then
IDENTIFIER, ASSIGN, NUMBER, EOF. -/
theorem comment_attachment_amended :
    tokenize ("// hi\nlet x = 1".toList) =
      [⟨.LET, "let".toList, [⟨"// hi".toList, 6⟩], 6⟩,
       ⟨.IDENTIFIER, "x".toList, [], 10⟩,
       ⟨.ASSIGN, "=".toList, [], 12⟩,
       ⟨.NUMBER, "1".toList, [], 14⟩,
       ⟨.EOF, [], [], 15⟩] := rfl

/-- Claim C2, counterexample: for the comment-only input `// hi` the buffered
comment is NOT discarded: `createToken(EOF, '')` drains `lastComments`, so the
single EOF token carries the trailing comment `⟨"// hi", 5⟩`. -/
theorem trailing_comment_counterexample :
    tokenize ("// hi".toList) = [⟨.EOF, [], [⟨"// hi".toList, 5⟩], 5⟩] ∧
      (∃ t ∈ tokenize ("// hi".toList), t.comments ≠ []) := by
  exact ⟨rfl, by decide⟩


/-! ## Lemmas about the lexer: cursor bounds -/

theorem getElem?_some_lt {p : List Char} {k : Nat} {c : Char}
    (h : p[k]? = some c) : k < p.length := by
  by_contra hcon
  rw [List.getElem?_eq_none (by omega)] at h
  exact absurd h (by simp)

theorem matchC_bounds (p : List Char) (cur : Nat) (c : Char) :
    cur ≤ (matchC p cur c).2 ∧ (matchC p cur c).2 ≤ cur + 1 ∧
      ((matchC p cur c).1 = true → cur < p.length ∧ (matchC p cur c).2 = cur + 1) ∧
      ((matchC p cur c).1 = false → (matchC p cur c).2 = cur) := by
  unfold matchC
  split
  case isTrue h =>
    exact ⟨by omega, by omega, fun _ => ⟨getElem?_some_lt h, rfl⟩, fun hf => by simp at hf⟩
  case isFalse h =>
    exact ⟨le_refl _, by omega, fun ht => by simp at ht, fun _ => rfl⟩

theorem matchC_le_length (p : List Char) (cur : Nat) (c : Char) (h : cur ≤ p.length) :
    (matchC p cur c).2 ≤ p.length := by
  have hb := matchC_bounds p cur c
  cases hm : (matchC p cur c).1 with
  | true => have := hb.2.2.1 hm; omega
  | false => have := hb.2.2.2 hm; omega

theorem scanPredicateGo_bounds (p : List Char) (pred : Char → Bool) :
    ∀ (fuel : Nat) (cur : Nat), cur ≤ p.length →
      cur ≤ scanPredicateGo p pred fuel cur ∧ scanPredicateGo p pred fuel cur ≤ p.length := by
  intro fuel
  induction fuel with
  | zero => intro cur h; simp only [scanPredicateGo]; omega
  | succ n ih =>
    intro cur h
    simp only [scanPredicateGo]
    split
    case isTrue hlt =>
      split
      · have := ih (cur + 1) (by omega)
        omega
      · omega
    case isFalse hge => omega

theorem scanPredicate_bounds (p : List Char) (cur : Nat) (pred : Char → Bool)
    (h : cur ≤ p.length) :
    cur ≤ scanPredicate p cur pred ∧ scanPredicate p cur pred ≤ p.length :=
  scanPredicateGo_bounds p pred (p.length - cur) cur h

theorem advanceToEOLGo_bounds (p : List Char) :
    ∀ (fuel : Nat) (cur : Nat), cur ≤ p.length →
      cur ≤ advanceToEOLGo p fuel cur ∧ advanceToEOLGo p fuel cur ≤ p.length := by
  intro fuel
  induction fuel with
  | zero => intro cur h; simp only [advanceToEOLGo]; omega
  | succ n ih =>
    intro cur h
    simp only [advanceToEOLGo]
    split
    case isTrue hlt =>
      have h1 := matchC_bounds p cur '\n'
      split
      case isTrue hm1 => omega
      case isFalse hm1 =>
        have hm1e := h1.2.2.2 (by revert hm1; cases (matchC p cur '\n').1 <;> simp)
        have h2 := matchC_bounds p cur '\r'
        split
        case isTrue hm2 =>
          have hm2e := h2.2.2.1 (by revert hm2; cases (matchC p cur '\r').1 <;> simp)
          have h3 := matchC_bounds p (matchC p cur '\r').2 '\n'
          have h3l := matchC_le_length p (matchC p cur '\r').2 '\n' (by omega)
          omega
        case isFalse hm2 =>
          have := ih (cur + 1) (by omega)
          omega
    case isFalse hge => omega

theorem advanceToEOL_bounds (p : List Char) (cur : Nat) (h : cur ≤ p.length) :
    cur ≤ advanceToEOL p cur ∧ advanceToEOL p cur ≤ p.length :=
  advanceToEOLGo_bounds p (p.length - cur) cur h

theorem scanNumberLoopGo_bounds (p : List Char) :
    ∀ (fuel : Nat) (cur : Nat), cur ≤ p.length →
      cur ≤ scanNumberLoopGo p fuel cur ∧ scanNumberLoopGo p fuel cur ≤ p.length := by
  intro fuel
  induction fuel with
  | zero => intro cur h; simp only [scanNumberLoopGo]; omega
  | succ n ih =>
    intro cur h
    simp only [scanNumberLoopGo]
    split
    case isTrue hlt =>
      have h1 := matchC_bounds p cur '.'
      split
      case isTrue hm1 => omega
      case isFalse hm1 =>
        split
        · have := ih (cur + 1) (by omega)
          omega
        · omega
    case isFalse hge => omega

theorem scanNumberLoop_bounds (p : List Char) (cur : Nat) (h : cur ≤ p.length) :
    cur ≤ scanNumberLoop p cur ∧ scanNumberLoop p cur ≤ p.length :=
  scanNumberLoopGo_bounds p (p.length - cur) cur h

/-! ## Lemmas about token construction -/

theorem substringJS_length (p : List Char) (a b : Nat) (h1 : a ≤ b) (h2 : b ≤ p.length) :
    (substringJS p a b).length = b - a := by
  unfold substringJS
  simp [List.length_take, List.length_drop]
  omega

theorem createToken_none_eq (p : List Char) (st : St) (k : TokenKind)
    (h1 : st.anchor ≤ st.cursor) (h2 : st.cursor ≤ p.length) :
    createToken p st k none =
      (⟨k, substringJS p st.anchor st.cursor, st.buf, st.anchor⟩,
        ⟨st.cursor, st.cursor, [], st.errs⟩) := by
  unfold createToken lexSubstring
  dsimp only
  have hlen : (substringJS p st.anchor st.cursor).length = st.cursor - st.anchor :=
    substringJS_length p st.anchor st.cursor h1 h2
  rw [hlen]
  have : st.cursor - (st.cursor - st.anchor) = st.anchor := by omega
  rw [this]

theorem substringJS_self (p : List Char) (a b : Nat) (h1 : a ≤ b) (h2 : b ≤ p.length) :
    substringJS p a (a + (substringJS p a b).length) = substringJS p a b := by
  rw [substringJS_length p a b h1 h2]
  have : a + (b - a) = b := by omega
  rw [this]


/-! ## Step specifications for the lexer helpers -/

theorem createToken_none_kind (p : List Char) (st : St) (k : TokenKind) :
    (createToken p st k none).1.kind = k := rfl

theorem tokRes_of_createToken (p : List Char) (st : St) (k : TokenKind) (X : Nat)
    (h1 : st.anchor ≤ X) (h2 : st.cursor ≤ X) (h3 : X ≤ p.length) :
    TokRes p st (createToken p ⟨X, st.anchor, st.buf, st.errs⟩ k none) := by
  rw [createToken_none_eq p ⟨X, st.anchor, st.buf, st.errs⟩ k h1 h3]
  unfold TokRes
  dsimp only
  have hl := substringJS_length p st.anchor X h1 h3
  refine ⟨h2, h3, rfl, rfl, rfl, le_refl _, by rw [hl]; omega, ?_⟩
  intro _
  exact (substringJS_self p st.anchor X h1 h3).symm

theorem TokRes.mono (p : List Char) {st st' : St} {r : Token × St}
    (h : TokRes p st' r) (hcur : st.cursor ≤ st'.cursor)
    (ha : st'.anchor = st.anchor) (hb : st'.buf = st.buf) : TokRes p st r := by
  obtain ⟨c1, c2, c3, c4, c5, c6, c7, c8⟩ := h
  exact ⟨by omega, c2, c3, c4, by rw [← hb]; exact c5, by rw [← ha]; exact c6, c7, c8⟩

theorem scanString_eof_case (p : List Char) (st : St)
    (ha : st.anchor < st.cursor) (hc : st.cursor ≤ p.length) :
    TokRes p st (createToken p { st with
        errs := st.errs ++ [⟨st.anchor, "Unterminated string"⟩]
        anchor := st.anchor + 1 } .STRING none) ∧
      (createToken p { st with
        errs := st.errs ++ [⟨st.anchor, "Unterminated string"⟩]
        anchor := st.anchor + 1 } .STRING none).1.kind = .STRING := by
  constructor
  · rw [createToken_none_eq p _ .STRING (by dsimp only; omega) (by dsimp only; omega)]
    unfold TokRes
    dsimp only
    have hl := substringJS_length p (st.anchor + 1) st.cursor (by omega) hc
    refine ⟨le_refl _, hc, rfl, rfl, rfl, by omega, by rw [hl]; omega, ?_⟩
    intro h
    exact absurd rfl h
  · exact createToken_none_kind p _ .STRING

theorem scanStringGo_spec (p : List Char) : ∀ (fuel : Nat) (st : St),
    p.length - st.cursor ≤ fuel → st.anchor < st.cursor → st.cursor ≤ p.length →
    TokRes p st (scanStringGo p fuel st) ∧ (scanStringGo p fuel st).1.kind = .STRING := by
  intro fuel
  induction fuel with
  | zero =>
    intro st hf ha hc
    simp only [scanStringGo]
    exact scanString_eof_case p st ha hc
  | succ n ih =>
    intro st hf ha hc
    simp only [scanStringGo]
    split
    case isTrue hlt =>
      have hb := matchC_bounds p st.cursor '\''
      split
      case isTrue hm =>
        have hm2 := hb.2.2.1 hm
        unfold createToken lexSubstring
        dsimp only
        have hlc : (substringJS p (st.anchor + 1) (matchC p st.cursor '\'').2).length =
            (matchC p st.cursor '\'').2 - (st.anchor + 1) :=
          substringJS_length p _ _ (by omega) (by omega)
        have hlc2 : ((substringJS p (st.anchor + 1) (matchC p st.cursor '\'').2).take
            ((substringJS p (st.anchor + 1) (matchC p st.cursor '\'').2).length - 1)).length =
            (matchC p st.cursor '\'').2 - (st.anchor + 1) - 1 := by
          rw [List.length_take, hlc]
          omega
        constructor
        · unfold TokRes
          dsimp only
          refine ⟨by omega, by omega, rfl, rfl, rfl, by rw [hlc2]; omega,
            by rw [hlc2]; omega, ?_⟩
          intro h
          exact absurd rfl h
        · rfl
      case isFalse hm =>
        have hme := hb.2.2.2 (by revert hm; cases (matchC p st.cursor '\'').1 <;> simp)
        have hres := ih { st with cursor := st.cursor + 1 } (by dsimp only; omega)
          (by dsimp only; omega) (by dsimp only; omega)
        exact ⟨TokRes.mono p hres.1 (by dsimp only; omega) rfl rfl, hres.2⟩
    case isFalse hge =>
      exact scanString_eof_case p st ha hc

theorem scanDigits_spec (p : List Char) (st : St)
    (h1 : st.anchor ≤ st.cursor) (h2 : st.cursor ≤ p.length) :
    TokRes p st (scanDigits p st) ∧ (scanDigits p st).1.kind = .NUMBER := by
  have hsb := scanPredicate_bounds p st.cursor isDigit h2
  exact ⟨tokRes_of_createToken p st .NUMBER (scanPredicate p st.cursor isDigit)
    (by omega) hsb.1 hsb.2, createToken_none_kind p _ .NUMBER⟩

theorem scanHexNumber_spec (p : List Char) (st : St)
    (h1 : st.anchor ≤ st.cursor) (h2 : st.cursor ≤ p.length) :
    TokRes p st (scanHexNumber p st) ∧ (scanHexNumber p st).1.kind = .NUMBER := by
  have hsb := scanPredicate_bounds p st.cursor isHexadecimal h2
  exact ⟨tokRes_of_createToken p st .NUMBER (scanPredicate p st.cursor isHexadecimal)
    (by omega) hsb.1 hsb.2, createToken_none_kind p _ .NUMBER⟩

theorem scanNumberTail_spec (p : List Char) (st : St)
    (h1 : st.anchor ≤ st.cursor) (h2 : st.cursor ≤ p.length) :
    TokRes p st (scanNumberTail p st) ∧ (scanNumberTail p st).1.kind = .NUMBER := by
  simp only [scanNumberTail]
  have hbE := matchC_bounds p st.cursor 'E'
  have hbEl := matchC_le_length p st.cursor 'E' h2
  split
  case isTrue hm =>
    have hres := scanDigits_spec p { st with cursor := (matchC p st.cursor 'E').2 }
      (by dsimp only; omega) (by dsimp only; omega)
    exact ⟨TokRes.mono p hres.1 (by dsimp only; omega) rfl rfl, hres.2⟩
  case isFalse hm =>
    have hmE := hbE.2.2.2 (by revert hm; cases (matchC p st.cursor 'E').1 <;> simp)
    have hbe := matchC_bounds p (matchC p st.cursor 'E').2 'e'
    have hbel := matchC_le_length p (matchC p st.cursor 'E').2 'e' (by omega)
    split
    case isTrue hm2 =>
      have hres := scanDigits_spec p
        { st with cursor := (matchC p (matchC p st.cursor 'E').2 'e').2 }
        (by dsimp only; omega) (by dsimp only; omega)
      exact ⟨TokRes.mono p hres.1 (by dsimp only; omega) rfl rfl, hres.2⟩
    case isFalse hm2 =>
      have hme := hbe.2.2.2
        (by revert hm2; cases (matchC p (matchC p st.cursor 'E').2 'e').1 <;> simp)
      have hlb := scanNumberLoop_bounds p (matchC p (matchC p st.cursor 'E').2 'e').2
        (by omega)
      have hres := scanDigits_spec p
        { st with cursor := scanNumberLoop p (matchC p (matchC p st.cursor 'E').2 'e').2 }
        (by dsimp only; omega) (by dsimp only; omega)
      exact ⟨TokRes.mono p hres.1 (by dsimp only; omega) rfl rfl, hres.2⟩

theorem scanNumber_spec (p : List Char) (st : St) (c : Char)
    (h1 : st.anchor ≤ st.cursor) (h2 : st.cursor ≤ p.length) :
    TokRes p st (scanNumber p st c) ∧ (scanNumber p st c).1.kind = .NUMBER := by
  simp only [scanNumber]
  split
  case isTrue h0 =>
    have hbX := matchC_bounds p st.cursor 'X'
    have hbXl := matchC_le_length p st.cursor 'X' h2
    split
    case isTrue hm =>
      have hres := scanHexNumber_spec p { st with cursor := (matchC p st.cursor 'X').2 }
        (by dsimp only; omega) (by dsimp only; omega)
      exact ⟨TokRes.mono p hres.1 (by dsimp only; omega) rfl rfl, hres.2⟩
    case isFalse hm =>
      have hmX := hbX.2.2.2 (by revert hm; cases (matchC p st.cursor 'X').1 <;> simp)
      have hbx := matchC_bounds p (matchC p st.cursor 'X').2 'x'
      have hbxl := matchC_le_length p (matchC p st.cursor 'X').2 'x' (by omega)
      split
      case isTrue hm2 =>
        have hres := scanHexNumber_spec p
          { st with cursor := (matchC p (matchC p st.cursor 'X').2 'x').2 }
          (by dsimp only; omega) (by dsimp only; omega)
        exact ⟨TokRes.mono p hres.1 (by dsimp only; omega) rfl rfl, hres.2⟩
      case isFalse hm2 =>
        have hmx := hbx.2.2.2
          (by revert hm2; cases (matchC p (matchC p st.cursor 'X').2 'x').1 <;> simp)
        have hres := scanNumberTail_spec p
          { st with cursor := (matchC p (matchC p st.cursor 'X').2 'x').2 }
          (by dsimp only; omega) (by dsimp only; omega)
        exact ⟨TokRes.mono p hres.1 (by dsimp only; omega) rfl rfl, hres.2⟩
  case isFalse h0 =>
    exact scanNumberTail_spec p st h1 h2

theorem keywordKind_getD_ne (s : List Char) :
    (keywordKind s).getD .IDENTIFIER ≠ TokenKind.STRING := by
  unfold keywordKind
  split_ifs <;> decide

theorem scanIdentifierOrKeyword_spec (p : List Char) (st : St)
    (h1 : st.anchor ≤ st.cursor) (h2 : st.cursor ≤ p.length) :
    TokRes p st (scanIdentifierOrKeyword p st) ∧
      (scanIdentifierOrKeyword p st).1.kind ≠ .STRING := by
  have hsb := scanPredicate_bounds p st.cursor isIdentifier h2
  have heq : scanIdentifierOrKeyword p st =
      createToken p ⟨scanPredicate p st.cursor isIdentifier, st.anchor, st.buf, st.errs⟩
        ((keywordKind (substringJS p st.anchor
          (scanPredicate p st.cursor isIdentifier))).getD .IDENTIFIER) none := rfl
  rw [heq]
  refine ⟨tokRes_of_createToken p st _ _ (by omega) hsb.1 hsb.2, ?_⟩
  rw [createToken_none_kind]
  exact keywordKind_getD_ne _


/-! ## The master `scanToken` step lemma -/

theorem scanTokenOK_of_createToken (p : List Char) (st : St) (k : TokenKind) (X : Nat)
    (h1 : st.anchor ≤ st.cursor) (h2 : st.cursor < X) (h3 : X ≤ p.length) :
    ScanTokenOK p st (tokenOf (createToken p ⟨X, st.anchor, st.buf, st.errs⟩ k none)) := by
  rw [createToken_none_eq p ⟨X, st.anchor, st.buf, st.errs⟩ k (by dsimp only; omega)
    (by dsimp only; exact h3)]
  unfold ScanTokenOK tokenOf
  dsimp only
  have hl := substringJS_length p st.anchor X (by omega) h3
  exact ⟨h2, h3, by omega, le_refl _, rfl, rfl, le_refl _, by rw [hl]; omega,
    fun _ => (substringJS_self p st.anchor X (by omega) h3).symm⟩

theorem scanTokenOK_of_tokRes (p : List Char) (st : St) {st' : St} {r : Token × St}
    (h : TokRes p st' r) (hcur : st.cursor < st'.cursor)
    (ha : st'.anchor = st.anchor) (hb : st'.buf = st.buf) :
    ScanTokenOK p st (tokenOf r) := by
  obtain ⟨c1, c2, c3, c4, c5, c6, c7, c8⟩ := h
  have h6 : st.anchor ≤ r.1.offset := by rw [← ha]; exact c6
  unfold ScanTokenOK tokenOf
  dsimp only
  refine ⟨by omega, c2, by omega, by omega, c4, by rw [← hb]; exact c5, h6, c7, c8⟩

theorem scanSlash_OK (p : List Char) (st : St)
    (hc : st.cursor < p.length) (ha : st.anchor ≤ st.cursor) :
    ScanTokenOK p st (scanSlash p ⟨st.cursor + 1, st.anchor, st.buf, st.errs⟩) := by
  simp only [scanSlash]
  have hbm := matchC_bounds p (st.cursor + 1) '/'
  have hbml := matchC_le_length p (st.cursor + 1) '/' (by omega)
  split
  case isTrue hm =>
    have hm2 := hbm.2.2.1 hm
    have hadv := advanceToEOL_bounds p (matchC p (st.cursor + 1) '/').2 (by omega)
    simp only [lexSubstring]
    unfold ScanTokenOK
    dsimp only
    refine ⟨by omega, by omega, by omega, le_refl _, ?_⟩
    exact ⟨[⟨trimJS (substringJS p st.anchor
      (advanceToEOL p (matchC p (st.cursor + 1) '/').2)),
      advanceToEOL p (matchC p (st.cursor + 1) '/').2⟩], rfl⟩
  case isFalse hm =>
    have hme := hbm.2.2.2 (by revert hm; cases (matchC p (st.cursor + 1) '/').1 <;> simp)
    have hbm2 := matchC_bounds p (matchC p (st.cursor + 1) '/').2 '='
    have hbm2l := matchC_le_length p (matchC p (st.cursor + 1) '/').2 '=' (by omega)
    exact scanTokenOK_of_createToken p st
      (if (matchC p (matchC p (st.cursor + 1) '/').2 '=').1 then TokenKind.SLASH_BY
        else TokenKind.SLASH)
      ((matchC p (matchC p (st.cursor + 1) '/').2 '=').2) ha (by omega) (by omega)

theorem scanToken_spec (p : List Char) (st : St)
    (hc : st.cursor < p.length) (ha : st.anchor ≤ st.cursor) :
    ScanTokenOK p st (scanToken p st) := by
  obtain ⟨c, hget⟩ : ∃ c, p[st.cursor]? = some c := ⟨_, List.getElem?_eq_getElem hc⟩
  unfold scanToken
  rw [hget]
  unfold scanTokenDispatch
  split
  all_goals try dsimp only
  -- '('
  · exact scanTokenOK_of_createToken p st .LEFT_PAREN (st.cursor + 1) ha (by omega) (by omega)
  -- ')'
  · exact scanTokenOK_of_createToken p st .RIGHT_PAREN (st.cursor + 1) ha (by omega) (by omega)
  -- '{'
  · exact scanTokenOK_of_createToken p st .LEFT_CURLY (st.cursor + 1) ha (by omega) (by omega)
  -- '}'
  · exact scanTokenOK_of_createToken p st .RIGHT_CURLY (st.cursor + 1) ha (by omega) (by omega)
  -- '.'
  · exact scanTokenOK_of_createToken p st .PERIOD (st.cursor + 1) ha (by omega) (by omega)
  -- '+'
  · have hb1 := matchC_bounds p (st.cursor + 1) '='
    have hb1l := matchC_le_length p (st.cursor + 1) '=' (by omega)
    split
    case isTrue hm =>
      exact scanTokenOK_of_createToken p st .PLUS_BY ((matchC p (st.cursor + 1) '=').2)
        ha (by omega) (by omega)
    case isFalse hm =>
      have hme := hb1.2.2.2 (by revert hm; cases (matchC p (st.cursor + 1) '=').1 <;> simp)
      have hb2 := matchC_bounds p (matchC p (st.cursor + 1) '=').2 '+'
      have hb2l := matchC_le_length p (matchC p (st.cursor + 1) '=').2 '+' (by omega)
      exact scanTokenOK_of_createToken p st
        (if (matchC p (matchC p (st.cursor + 1) '=').2 '+').1 then .INCREMENT else .PLUS)
        ((matchC p (matchC p (st.cursor + 1) '=').2 '+').2) ha (by omega) (by omega)
  -- '-'
  · have hb1 := matchC_bounds p (st.cursor + 1) '>'
    have hb1l := matchC_le_length p (st.cursor + 1) '>' (by omega)
    split
    case isTrue hm =>
      exact scanTokenOK_of_createToken p st .ARROW ((matchC p (st.cursor + 1) '>').2)
        ha (by omega) (by omega)
    case isFalse hm =>
      have hme := hb1.2.2.2 (by revert hm; cases (matchC p (st.cursor + 1) '>').1 <;> simp)
      have hb2 := matchC_bounds p (matchC p (st.cursor + 1) '>').2 '='
      have hb2l := matchC_le_length p (matchC p (st.cursor + 1) '>').2 '=' (by omega)
      split
      case isTrue hm2 =>
        exact scanTokenOK_of_createToken p st .MINUS_BY
          ((matchC p (matchC p (st.cursor + 1) '>').2 '=').2) ha (by omega) (by omega)
      case isFalse hm2 =>
        have hme2 := hb2.2.2.2
          (by revert hm2; cases (matchC p (matchC p (st.cursor + 1) '>').2 '=').1 <;> simp)
        have hb3 := matchC_bounds p (matchC p (matchC p (st.cursor + 1) '>').2 '=').2 '-'
        have hb3l := matchC_le_length p (matchC p (matchC p (st.cursor + 1) '>').2 '=').2 '-'
          (by omega)
        exact scanTokenOK_of_createToken p st
          (if (matchC p (matchC p (matchC p (st.cursor + 1) '>').2 '=').2 '-').1
            then .DECREMENT else .MINUS)
          ((matchC p (matchC p (matchC p (st.cursor + 1) '>').2 '=').2 '-').2)
          ha (by omega) (by omega)
  -- '*'
  · have hb1 := matchC_bounds p (st.cursor + 1) '='
    have hb1l := matchC_le_length p (st.cursor + 1) '=' (by omega)
    exact scanTokenOK_of_createToken p st
      (if (matchC p (st.cursor + 1) '=').1 then .STAR_BY else .STAR)
      ((matchC p (st.cursor + 1) '=').2) ha (by omega) (by omega)
  -- '='
  · have hb1 := matchC_bounds p (st.cursor + 1) '='
    have hb1l := matchC_le_length p (st.cursor + 1) '=' (by omega)
    split
    case isTrue hm =>
      have hb2 := matchC_bounds p (matchC p (st.cursor + 1) '=').2 '='
      have hb2l := matchC_le_length p (matchC p (st.cursor + 1) '=').2 '=' (by omega)
      exact scanTokenOK_of_createToken p st
        (if (matchC p (matchC p (st.cursor + 1) '=').2 '=').1 then .IDENTICAL else .EQUALS)
        ((matchC p (matchC p (st.cursor + 1) '=').2 '=').2) ha (by omega) (by omega)
    case isFalse hm =>
      have hme := hb1.2.2.2 (by revert hm; cases (matchC p (st.cursor + 1) '=').1 <;> simp)
      exact scanTokenOK_of_createToken p st .ASSIGN ((matchC p (st.cursor + 1) '=').2)
        ha (by omega) (by omega)
  -- '<'
  · have hb1 := matchC_bounds p (st.cursor + 1) '='
    have hb1l := matchC_le_length p (st.cursor + 1) '=' (by omega)
    split
    case isTrue hm =>
      exact scanTokenOK_of_createToken p st .LESS_THAN_OR_EQUAL
        ((matchC p (st.cursor + 1) '=').2) ha (by omega) (by omega)
    case isFalse hm =>
      have hme := hb1.2.2.2 (by revert hm; cases (matchC p (st.cursor + 1) '=').1 <;> simp)
      have hb2 := matchC_bounds p (matchC p (st.cursor + 1) '=').2 '<'
      have hb2l := matchC_le_length p (matchC p (st.cursor + 1) '=').2 '<' (by omega)
      exact scanTokenOK_of_createToken p st
        (if (matchC p (matchC p (st.cursor + 1) '=').2 '<').1 then .LEFT_SHIFT else .LESS_THAN)
        ((matchC p (matchC p (st.cursor + 1) '=').2 '<').2) ha (by omega) (by omega)
  -- '>'
  · have hb1 := matchC_bounds p (st.cursor + 1) '='
    have hb1l := matchC_le_length p (st.cursor + 1) '=' (by omega)
    split
    case isTrue hm =>
      exact scanTokenOK_of_createToken p st .GREATER_THAN_OR_EQUAL
        ((matchC p (st.cursor + 1) '=').2) ha (by omega) (by omega)
    case isFalse hm =>
      have hme := hb1.2.2.2 (by revert hm; cases (matchC p (st.cursor + 1) '=').1 <;> simp)
      have hb2 := matchC_bounds p (matchC p (st.cursor + 1) '=').2 '>'
      have hb2l := matchC_le_length p (matchC p (st.cursor + 1) '=').2 '>' (by omega)
      exact scanTokenOK_of_createToken p st
        (if (matchC p (matchC p (st.cursor + 1) '=').2 '>').1 then .RIGHT_SHIFT
          else .GREATER_THAN)
        ((matchC p (matchC p (st.cursor + 1) '=').2 '>').2) ha (by omega) (by omega)
  -- '/'
  · exact scanSlash_OK p st hc ha
  -- quote
  · have hs := scanStringGo_spec p (p.length - (st.cursor + 1))
      ⟨st.cursor + 1, st.anchor, st.buf, st.errs⟩ (by dsimp only; omega)
      (by dsimp only; omega) (by dsimp only; omega)
    exact scanTokenOK_of_tokRes p st hs.1 (Nat.lt_succ_self _) rfl rfl
  -- '|'
  · have hb1 := matchC_bounds p (st.cursor + 1) '|'
    have hb1l := matchC_le_length p (st.cursor + 1) '|' (by omega)
    exact scanTokenOK_of_createToken p st
      (if (matchC p (st.cursor + 1) '|').1 then .OR else .LOGICAL_OR)
      ((matchC p (st.cursor + 1) '|').2) ha (by omega) (by omega)
  -- '&'
  · have hb1 := matchC_bounds p (st.cursor + 1) '&'
    have hb1l := matchC_le_length p (st.cursor + 1) '&' (by omega)
    exact scanTokenOK_of_createToken p st
      (if (matchC p (st.cursor + 1) '&').1 then .AND else .LOGICAL_AND)
      ((matchC p (st.cursor + 1) '&').2) ha (by omega) (by omega)
  -- '~'
  · exact scanTokenOK_of_createToken p st .LOGICAL_NOT (st.cursor + 1) ha (by omega) (by omega)
  -- '^'
  · exact scanTokenOK_of_createToken p st .LOGICAL_XOR (st.cursor + 1) ha (by omega) (by omega)
  -- '!'
  · have hb1 := matchC_bounds p (st.cursor + 1) '='
    have hb1l := matchC_le_length p (st.cursor + 1) '=' (by omega)
    split
    case isTrue hm =>
      have hb2 := matchC_bounds p (matchC p (st.cursor + 1) '=').2 '='
      have hb2l := matchC_le_length p (matchC p (st.cursor + 1) '=').2 '=' (by omega)
      exact scanTokenOK_of_createToken p st
        (if (matchC p (matchC p (st.cursor + 1) '=').2 '=').1 then .NOT_IDENTICAL
          else .NOT_EQUALS)
        ((matchC p (matchC p (st.cursor + 1) '=').2 '=').2) ha (by omega) (by omega)
    case isFalse hm =>
      have hme := hb1.2.2.2 (by revert hm; cases (matchC p (st.cursor + 1) '=').1 <;> simp)
      exact scanTokenOK_of_createToken p st .NEGATE ((matchC p (st.cursor + 1) '=').2)
        ha (by omega) (by omega)
  -- default: whitespace / digit / identifier / unexpected
  · split
    case isTrue hws =>
      unfold ScanTokenOK
      dsimp only
      exact ⟨by omega, by omega, by omega, le_refl _, ⟨[], by simp⟩⟩
    case isFalse hws =>
      split
      case isTrue hdig =>
        exact scanTokenOK_of_tokRes p st
          (scanNumber_spec p ⟨st.cursor + 1, st.anchor, st.buf, st.errs⟩ _
            (by dsimp only; omega) (by dsimp only; omega)).1
          (Nat.lt_succ_self _) rfl rfl
      case isFalse hdig =>
        split
        case isTrue hid =>
          have hi := scanIdentifierOrKeyword_spec p ⟨st.cursor + 1, st.anchor, st.buf, st.errs⟩
            (by dsimp only; omega) (by dsimp only; omega)
          exact scanTokenOK_of_tokRes p st hi.1 (Nat.lt_succ_self _) rfl rfl
        case isFalse hid =>
          unfold ScanTokenOK
          dsimp only
          exact ⟨by omega, by omega, by omega, by omega, ⟨[], by simp⟩⟩
  -- none: impossible, the scrutinee is some c
  · rename_i heq
    exact absurd heq (by simp)

/-! ## The main loop invariant -/

theorem substringJS_nil (p : List Char) (a : Nat) : substringJS p a (a + 0) = [] := by
  simp [substringJS]

theorem scanAllGo_spec (p : List Char) : ∀ (fuel : Nat) (st : St),
    p.length - st.cursor < fuel → st.anchor ≤ st.cursor → st.cursor ≤ p.length →
    (scanAllGo p fuel st).1 ≠ [] ∧
    (∃ t, (scanAllGo p fuel st).1.getLast? = some t ∧ t.kind = .EOF ∧ t.lexeme = []) ∧
    (∀ t ∈ (scanAllGo p fuel st).1, st.anchor ≤ t.offset ∧
      (t.kind ≠ .STRING → t.lexeme = substringJS p t.offset (t.offset + t.lexeme.length))) ∧
    List.Pairwise (fun a b => a.offset ≤ b.offset) (scanAllGo p fuel st).1 ∧
    ((scanAllGo p fuel st).1.map Token.comments).flatten = st.buf ++ commentLogGo p fuel st ∧
    (scanAllGo p fuel st).2.buf = [] := by
  intro fuel
  induction fuel with
  | zero =>
    intro st hf ha hc
    omega
  | succ n ih =>
    intro st hf ha hc
    by_cases hlt : st.cursor < p.length
    case neg =>
      have hunfold : scanAllGo p (n + 1) st =
          ([⟨.EOF, [], st.buf, st.anchor⟩], { st with buf := [] }) := by
        simp only [scanAllGo]
        rw [if_neg hlt]
        unfold createToken
        dsimp only
        simp
      have hlog : commentLogGo p (n + 1) st = [] := by
        simp only [commentLogGo]
        rw [if_neg hlt]
      rw [hunfold, hlog]
      refine ⟨by simp, ⟨_, rfl, rfl, rfl⟩, ?_, ?_, by simp, rfl⟩
      · intro t ht
        rcases List.mem_singleton.mp ht with rfl
        exact ⟨le_refl _, fun _ => (substringJS_nil p st.anchor).symm⟩
      · exact List.pairwise_singleton _ _
    case pos =>
      have hok := scanToken_spec p st hlt ha
      obtain ⟨hcur, hcl, hanc, hac, hmatch⟩ := hok
      have hih := ih (scanToken p st).2 (by omega) (by omega) hcl
      obtain ⟨ihne, ihlast, ihall, ihpw, ihjoin, ihbuf⟩ := hih
      have hunfold : scanAllGo p (n + 1) st =
          ((match (scanToken p st).1 with
            | some t => t :: (scanAllGo p n (scanToken p st).2).1
            | none => (scanAllGo p n (scanToken p st).2).1),
           (scanAllGo p n (scanToken p st).2).2) := by
        simp only [scanAllGo]
        rw [if_pos hlt]
      have hlog : commentLogGo p (n + 1) st =
          stepPush p st ++ commentLogGo p n (scanToken p st).2 := by
        simp only [commentLogGo]
        rw [if_pos hlt]
      rw [hunfold, hlog]
      cases hscan : (scanToken p st).1 with
      | some t =>
        rw [hscan] at hmatch
        obtain ⟨hbuf0, hcom, hoff, hend, hsub⟩ := hmatch
        have hpush : stepPush p st = [] := by
          unfold stepPush
          rw [hbuf0]
          simp
        obtain ⟨tE, htE1, htE2, htE3⟩ := ihlast
        refine ⟨by simp, ⟨tE, getLast?_cons_some htE1 t, htE2, htE3⟩, ?_, ?_, ?_, ihbuf⟩
        · intro u hu
          rcases List.mem_cons.mp hu with rfl | hu'
          · exact ⟨hoff, hsub⟩
          · have h2 := ihall u hu'
            exact ⟨by omega, h2.2⟩
        · refine List.pairwise_cons.mpr ⟨?_, ihpw⟩
          intro u hu
          have h2 := (ihall u hu).1
          omega
        · simp only [List.map_cons, List.flatten_cons]
          rw [ihjoin, hcom, hbuf0, hpush]
      | none =>
        rw [hscan] at hmatch
        obtain ⟨push, hpush⟩ := hmatch
        have hstep : stepPush p st = push := by
          unfold stepPush
          rw [hpush]
          exact List.drop_left _ _
        obtain ⟨tE, htE1, htE2, htE3⟩ := ihlast
        refine ⟨ihne, ⟨tE, htE1, htE2, htE3⟩, ?_, ihpw, ?_, ihbuf⟩
        · intro u hu
          have h2 := ihall u hu
          exact ⟨by omega, h2.2⟩
        · rw [ihjoin, hpush, hstep]
          simp

/-! ## Claim theorems: the lexer invariants -/

/-- Claim C1: every token sequence ends with the synthetic EOF token (empty
input yields exactly `[EOF]`), token offsets are non-decreasing, and every
non-EOF, non-STRING token's lexeme is literally the program slice
`[offset, offset + lexeme.length)`. -/
theorem tokenize_invariants (p : List Char) :
    tokenize p ≠ [] ∧
    (∃ t, (tokenize p).getLast? = some t ∧ t.kind = .EOF ∧ t.lexeme = []) ∧
    List.Pairwise (fun a b => a.offset ≤ b.offset) (tokenize p) ∧
    (∀ t ∈ tokenize p, t.kind ≠ .EOF → t.kind ≠ .STRING →
      substringJS p t.offset (t.offset + t.lexeme.length) = t.lexeme) ∧
    tokenize ([] : List Char) = [⟨.EOF, [], [], 0⟩] := by
  have h := scanAllGo_spec p (p.length + 1) ⟨0, 0, [], []⟩
    (by show p.length - 0 < p.length + 1; omega) (le_refl _) (Nat.zero_le _)
  obtain ⟨hne, hlast, hall, hpw, _, _⟩ := h
  exact ⟨hne, hlast, hpw,
    fun t ht _ hstr => ((hall t ht).2 hstr).symm, rfl⟩

/-- Claim C1, witness: the invariants applied to a concrete program. -/
theorem tokenize_invariants_witness :
    tokenize ("let x".toList) ≠ [] ∧
      substringJS ("let x".toList) 0 (0 + ("let".toList).length) = "let".toList := by
  have h := tokenize_invariants ("let x".toList)
  refine ⟨h.1, ?_⟩
  exact h.2.2.2.1 ⟨.LET, "let".toList, [], 0⟩ (by decide) (by decide) (by decide)

/-- Claim C10: the concatenation, in order, of the attached-comment lists of
the tokens returned by `tokenize` is exactly the sequence of comment records
buffered during the run (`commentLog`): every buffered comment is attached to
exactly one token (the EOF token included), none is duplicated and none is
dropped; the final buffer is empty (`clearComments` drains it at every token,
EOF included). -/
theorem tokenize_comments_partition (p : List Char) :
    ((tokenize p).map Token.comments).flatten = commentLog p ∧
      (tokenizeFull p).2.buf = [] := by
  have h := scanAllGo_spec p (p.length + 1) ⟨0, 0, [], []⟩
    (by show p.length - 0 < p.length + 1; omega) (le_refl _) (Nat.zero_le _)
  exact ⟨h.2.2.2.2.1, h.2.2.2.2.2⟩


/-! ## Unterminated strings (scanString reaching EOF) -/

theorem scanAllGo_at_end (p : List Char) (fuel : Nat) (st : St)
    (h : st.cursor = p.length) :
    scanAllGo p fuel st = ([⟨.EOF, [], st.buf, st.anchor⟩], { st with buf := [] }) := by
  cases fuel with
  | zero =>
    simp only [scanAllGo]
    unfold createToken
    dsimp only
    simp
  | succ n =>
    simp only [scanAllGo]
    rw [if_neg (by omega)]
    unfold createToken
    dsimp only
    simp

theorem scanStringGo_no_quote (p : List Char) : ∀ (fuel : Nat) (st : St),
    fuel = p.length - st.cursor → st.cursor ≤ p.length →
    (∀ k, st.cursor ≤ k → k < p.length → p[k]? ≠ some '\'') →
    scanStringGo p fuel st =
      createToken p
        ⟨p.length, st.anchor + 1, st.buf,
          st.errs ++ [⟨st.anchor, "Unterminated string"⟩]⟩ .STRING none := by
  intro fuel
  induction fuel with
  | zero =>
    intro st hf hc hq
    have hcl : st.cursor = p.length := by omega
    obtain ⟨c0, a0, b0, e0⟩ := st
    dsimp only at hcl
    subst hcl
    simp only [scanStringGo]
  | succ n ih =>
    intro st hf hc hq
    have hlt : st.cursor < p.length := by omega
    simp only [scanStringGo]
    rw [if_pos hlt]
    have hm : matchC p st.cursor '\'' = (false, st.cursor) := by
      unfold matchC
      rw [if_neg (hq st.cursor (le_refl _) hlt)]
    rw [hm]
    dsimp only
    have hres := ih { st with cursor := st.cursor + 1 } (by dsimp only; omega)
      (by dsimp only; omega)
      (by
        intro k hk1 hk2
        exact hq k (by dsimp only at hk1; omega) hk2)
    exact hres

/-- Claim C6: a string literal opened by a quote that reaches EOF without a
closing quote reports `Unterminated string` through the error reporter (here:
the recorded error list) and, the reporter returning normally, still emits a
STRING token whose lexeme is the consumed text without the opening quote,
followed by EOF. -/
theorem scanString_unterminated (tail : List Char) (h : '\'' ∉ tail) :
    tokenizeFull ('\'' :: tail) =
      ([⟨.STRING, tail, [], 1⟩, ⟨.EOF, [], [], tail.length + 1⟩],
        ⟨tail.length + 1, tail.length + 1, [], [⟨0, "Unterminated string"⟩]⟩) := by
  have hlen : ('\'' :: tail).length = tail.length + 1 := by simp
  have hq : ∀ k, 1 ≤ k → k < ('\'' :: tail).length → ('\'' :: tail)[k]? ≠ some '\'' := by
    intro k hk1 hk2 hcon
    obtain ⟨j, rfl⟩ : ∃ j, k = j + 1 := ⟨k - 1, by omega⟩
    rw [List.getElem?_cons_succ] at hcon
    exact h (List.getElem?_mem hcon)
  have hsub : substringJS ('\'' :: tail) 1 (tail.length + 1) = tail := by
    simp [substringJS]
  have h1 : scanToken ('\'' :: tail) ⟨0, 0, [], []⟩ =
      (some ⟨.STRING, tail, [], 1⟩,
        ⟨tail.length + 1, tail.length + 1, [], [⟨0, "Unterminated string"⟩]⟩) := by
    show scanTokenDispatch ('\'' :: tail) (('\'' :: tail))[(0 : Nat)]? ⟨1, 0, [], []⟩ = _
    rw [List.getElem?_cons_zero]
    unfold scanTokenDispatch
    dsimp only
    show tokenOf (scanString ('\'' :: tail) ⟨1, 0, [], []⟩) = _
    unfold scanString
    rw [show ('\'' :: tail).length - (⟨1, 0, [], []⟩ : St).cursor = tail.length by
      dsimp only; omega]
    rw [scanStringGo_no_quote ('\'' :: tail) tail.length ⟨1, 0, [], []⟩
      (by dsimp only; omega) (by dsimp only; omega) (by exact hq)]
    rw [createToken_none_eq _ _ _ (by dsimp only; omega) (by dsimp only; omega)]
    unfold tokenOf
    dsimp only
    rw [hlen, hsub]
    simp
  unfold tokenizeFull
  rw [hlen]
  have hu : scanAllGo ('\'' :: tail) (tail.length + 1 + 1) ⟨0, 0, [], []⟩ =
      ((match (scanToken ('\'' :: tail) ⟨0, 0, [], []⟩).1 with
        | some t => t :: (scanAllGo ('\'' :: tail) (tail.length + 1)
            (scanToken ('\'' :: tail) ⟨0, 0, [], []⟩).2).1
        | none => (scanAllGo ('\'' :: tail) (tail.length + 1)
            (scanToken ('\'' :: tail) ⟨0, 0, [], []⟩).2).1),
       (scanAllGo ('\'' :: tail) (tail.length + 1)
         (scanToken ('\'' :: tail) ⟨0, 0, [], []⟩).2).2) := by
    simp only [scanAllGo]
    rw [if_pos (by show 0 < ('\'' :: tail).length; simp)]
  rw [hu, h1]
  rw [scanAllGo_at_end ('\'' :: tail) (tail.length + 1)
    ⟨tail.length + 1, tail.length + 1, [], [⟨0, "Unterminated string"⟩]⟩
    (by dsimp only; simp)]

/-- Claim C6, witness: `'unterm` produces the reported error and the STRING
then EOF tokens. -/
theorem scanString_unterminated_witness :
    ('\'' ∉ ("unterm".toList)) ∧
      tokenizeFull ("'unterm".toList) =
        ([⟨.STRING, "unterm".toList, [], 1⟩, ⟨.EOF, [], [], 7⟩],
          ⟨7, 7, [], [⟨0, "Unterminated string"⟩]⟩) := by
  refine ⟨by decide, ?_⟩
  have h := scanString_unterminated ("unterm".toList) (by decide)
  exact h


/-! ## Whitespace- and comment-only inputs -/

theorem matchC_pos {p : List Char} {cur : Nat} {c : Char} (h : p[cur]? = some c) :
    matchC p cur c = (true, cur + 1) := by
  unfold matchC
  rw [if_pos h]

theorem matchC_neg {p : List Char} {cur : Nat} {c : Char} (h : p[cur]? ≠ some c) :
    matchC p cur c = (false, cur) := by
  unfold matchC
  rw [if_neg h]

theorem drop_cons_getElem {p : List Char} {q : Nat} {c : Char} {r : List Char}
    (h : p.drop q = c :: r) : p[q]? = some c ∧ p.drop (q + 1) = r := by
  constructor
  · have h0 : (p.drop q)[0]? = some c := by rw [h]; exact List.getElem?_cons_zero
    rwa [List.getElem?_drop, Nat.add_zero] at h0
  · have h2 := congrArg (List.drop 1) h
    rw [List.drop_drop] at h2
    rw [Nat.add_comm q 1] at h2 ⊢
    rw [Nat.add_comm 1 q]
    rw [Nat.add_comm q 1]
    simpa using h2

theorem drop_shift {p xs ys : List Char} {q : Nat} (h : p.drop q = xs ++ ys) :
    p.drop (q + xs.length) = ys := by
  have h2 := congrArg (List.drop xs.length) h
  rw [List.drop_drop, List.drop_left] at h2
  exact h2

theorem isWhiteSpace_enum {c : Char} (h : isWhiteSpace c = true) :
    c = ' ' ∨ c = '\t' ∨ c = '\n' ∨ c = '\r' := by
  unfold isWhiteSpace at h
  simp only [Bool.or_eq_true, beq_iff_eq] at h
  tauto

theorem advanceToEOLGo_termCase (p : List Char) : ∀ (body : List Char) (q fuel : Nat)
    (term rest : List Char),
    p.length - q ≤ fuel →
    (∀ ch ∈ body, ch ≠ '\n' ∧ ch ≠ '\r') →
    (term = ['\n'] ∨ (term = ['\r'] ∧ rest.head? ≠ some '\n') ∨ term = ['\r', '\n']) →
    p.drop q = body ++ term ++ rest →
    advanceToEOLGo p fuel q = q + body.length + term.length := by
  intro body
  induction body with
  | nil =>
    intro q fuel term rest hf hb hterm hdrop
    rcases hterm with ht | ⟨ht, hr⟩ | ht <;> subst ht
    · obtain ⟨hget, hdrop1⟩ := drop_cons_getElem (by simpa using hdrop)
      have hq : q < p.length := getElem?_some_lt hget
      cases fuel with
      | zero => omega
      | succ n =>
        simp only [advanceToEOLGo]
        rw [if_pos hq, matchC_pos hget]
        simp
    · obtain ⟨hget, hdrop1⟩ := drop_cons_getElem (by simpa using hdrop)
      have hq : q < p.length := getElem?_some_lt hget
      have hget1 : p[q + 1]? = rest.head? := by
        have h0 : (p.drop (q + 1))[0]? = rest.head? := by
          rw [hdrop1]
          cases rest <;> simp
        rwa [List.getElem?_drop, Nat.add_zero] at h0
      cases fuel with
      | zero => omega
      | succ n =>
        simp only [advanceToEOLGo]
        rw [if_pos hq, matchC_neg (by rw [hget]; simp), matchC_pos hget,
          matchC_neg (by rw [hget1]; exact hr)]
        simp
    · obtain ⟨hget, hdrop1⟩ := drop_cons_getElem (by simpa using hdrop)
      have hq : q < p.length := getElem?_some_lt hget
      obtain ⟨hget1, hdrop2⟩ := drop_cons_getElem hdrop1
      cases fuel with
      | zero => omega
      | succ n =>
        simp only [advanceToEOLGo]
        rw [if_pos hq, matchC_neg (by rw [hget]; simp), matchC_pos hget,
          matchC_pos hget1]
        simp
  | cons ch body2 ih =>
    intro q fuel term rest hf hb hterm hdrop
    obtain ⟨hget, hdrop1⟩ := drop_cons_getElem (by simpa using hdrop)
    have hq : q < p.length := getElem?_some_lt hget
    have hch := hb ch (by simp)
    cases fuel with
    | zero => omega
    | succ n =>
      simp only [advanceToEOLGo]
      rw [if_pos hq, matchC_neg (by rw [hget]; simp [hch.1]),
        matchC_neg (by rw [hget]; simp [hch.2])]
      dsimp only
      rw [← List.append_assoc] at hdrop1
      rw [ih (q + 1) n term rest (by omega) (fun c hc => hb c (by simp [hc])) hterm hdrop1]
      simp
      omega

theorem advanceToEOLGo_eofCase (p : List Char) : ∀ (body : List Char) (q fuel : Nat),
    p.length - q ≤ fuel → q ≤ p.length →
    (∀ ch ∈ body, ch ≠ '\n' ∧ ch ≠ '\r') → p.drop q = body →
    advanceToEOLGo p fuel q = p.length := by
  intro body
  induction body with
  | nil =>
    intro q fuel hf hql hb hdrop
    have hq : q = p.length := by
      have := List.drop_eq_nil_iff.mp hdrop
      omega
    subst hq
    cases fuel with
    | zero => simp only [advanceToEOLGo]
    | succ n =>
      simp only [advanceToEOLGo]
      rw [if_neg (by omega)]
  | cons ch body2 ih =>
    intro q fuel hf hql hb hdrop
    obtain ⟨hget, hdrop1⟩ := drop_cons_getElem hdrop
    have hq : q < p.length := getElem?_some_lt hget
    have hch := hb ch (by simp)
    cases fuel with
    | zero => omega
    | succ n =>
      simp only [advanceToEOLGo]
      rw [if_pos hq, matchC_neg (by rw [hget]; simp [hch.1]),
        matchC_neg (by rw [hget]; simp [hch.2])]
      dsimp only
      exact ih (q + 1) n (by omega) (by omega) (fun c hc => hb c (by simp [hc])) hdrop1

theorem scanAllGo_step (p : List Char) (fuel : Nat) (st : St) (hlt : st.cursor < p.length) :
    scanAllGo p (fuel + 1) st =
      ((match (scanToken p st).1 with
        | some t => t :: (scanAllGo p fuel (scanToken p st).2).1
        | none => (scanAllGo p fuel (scanToken p st).2).1),
       (scanAllGo p fuel (scanToken p st).2).2) := by
  simp only [scanAllGo]
  rw [if_pos hlt]

theorem commentLogGo_step (p : List Char) (fuel : Nat) (st : St)
    (hlt : st.cursor < p.length) :
    commentLogGo p (fuel + 1) st =
      stepPush p st ++ commentLogGo p fuel (scanToken p st).2 := by
  simp only [commentLogGo]
  rw [if_pos hlt]

theorem commentLogGo_at_end (p : List Char) (fuel : Nat) (st : St)
    (h : ¬st.cursor < p.length) : commentLogGo p fuel st = [] := by
  cases fuel with
  | zero => simp only [commentLogGo]
  | succ n =>
    simp only [commentLogGo]
    rw [if_neg h]

theorem scanAllGo_wsComments (p : List Char) : ∀ (suffix : List Char),
    WsComments suffix → ∀ (fuel : Nat) (st : St),
    p.drop st.cursor = suffix → st.anchor = st.cursor → st.cursor ≤ p.length →
    p.length - st.cursor < fuel →
    scanAllGo p fuel st =
      ([⟨.EOF, [], st.buf ++ commentLogGo p fuel st, p.length⟩],
        ⟨p.length, p.length, [], st.errs⟩) := by
  intro suffix h
  induction h with
  | nil =>
    intro fuel st hdrop ha hc hf
    have hcl : st.cursor = p.length := by
      have := List.drop_eq_nil_iff.mp hdrop
      omega
    rw [scanAllGo_at_end p fuel st hcl, commentLogGo_at_end p fuel st (by omega)]
    obtain ⟨c0, a0, b0, e0⟩ := st
    dsimp only at hcl ha ⊢
    subst hcl
    subst ha
    simp
  | ws hws hrest ih =>
    rename_i c rest
    intro fuel st hdrop ha hc hf
    obtain ⟨hget, hdrop1⟩ := drop_cons_getElem hdrop
    have hq : st.cursor < p.length := getElem?_some_lt hget
    have hstep : scanToken p st =
        (none, ⟨st.cursor + 1, st.cursor + 1, st.buf, st.errs⟩) := by
      unfold scanToken
      rw [hget]
      rcases isWhiteSpace_enum hws with rfl | rfl | rfl | rfl <;> rfl
    cases fuel with
    | zero => omega
    | succ f =>
      rw [scanAllGo_step p f st hq, commentLogGo_step p f st hq]
      have hpush0 : stepPush p st = [] := by
        unfold stepPush
        rw [hstep]
        exact List.drop_length _
      rw [hpush0, hstep]
      try dsimp only
      rw [ih f ⟨st.cursor + 1, st.cursor + 1, st.buf, st.errs⟩ hdrop1 rfl
        (by dsimp only; omega) (by dsimp only; omega)]
      simp
  | commentEol hb hterm hrest ih =>
    rename_i body term rest
    intro fuel st hdrop ha hc hf
    obtain ⟨hget, hdrop1⟩ := drop_cons_getElem hdrop
    obtain ⟨hget2, hdrop2⟩ := drop_cons_getElem hdrop1
    have hq : st.cursor < p.length := getElem?_some_lt hget
    have hq2 : st.cursor + 1 < p.length := getElem?_some_lt hget2
    have hdropBT : p.drop (st.cursor + 1 + 1) = body ++ (term ++ rest) := by
      rw [← List.append_assoc]
      exact hdrop2
    have hdropT : p.drop (st.cursor + 1 + 1 + body.length) = term ++ rest :=
      drop_shift hdropBT
    have hdropR : p.drop (st.cursor + 1 + 1 + body.length + term.length) = rest :=
      drop_shift hdropT
    have hadv : advanceToEOL p (st.cursor + 1 + 1) =
        st.cursor + 1 + 1 + body.length + term.length := by
      unfold advanceToEOL
      exact advanceToEOLGo_termCase p body (st.cursor + 1 + 1) _ term rest
        (le_refl _) hb hterm hdrop2
    have hE : st.cursor + 1 + 1 + body.length + term.length ≤ p.length := by
      have hbd := advanceToEOL_bounds p (st.cursor + 1 + 1) (by omega)
      omega
    have hstep : scanToken p st =
        (none, ⟨st.cursor + 1 + 1 + body.length + term.length,
          st.cursor + 1 + 1 + body.length + term.length,
          st.buf ++ [⟨trimJS (substringJS p st.anchor
            (st.cursor + 1 + 1 + body.length + term.length)),
            st.cursor + 1 + 1 + body.length + term.length⟩], st.errs⟩) := by
      have h0 : scanToken p st =
          scanSlash p ⟨st.cursor + 1, st.anchor, st.buf, st.errs⟩ := by
        unfold scanToken
        rw [hget]
        rfl
      rw [h0]
      simp only [scanSlash]
      dsimp only
      rw [matchC_pos hget2]
      dsimp only
      rw [hadv]
      simp only [lexSubstring]
      try dsimp only
      rw [ha]
      simp
    cases fuel with
    | zero => omega
    | succ f =>
      rw [scanAllGo_step p f st hq, commentLogGo_step p f st hq]
      have hpushc : stepPush p st =
          [⟨trimJS (substringJS p st.anchor
            (st.cursor + 1 + 1 + body.length + term.length)),
            st.cursor + 1 + 1 + body.length + term.length⟩] := by
        unfold stepPush
        rw [hstep]
        exact List.drop_left _ _
      rw [hpushc, hstep]
      try dsimp only
      have hIH := ih f ⟨st.cursor + 1 + 1 + body.length + term.length,
        st.cursor + 1 + 1 + body.length + term.length,
        st.buf ++ [⟨trimJS (substringJS p st.anchor
          (st.cursor + 1 + 1 + body.length + term.length)),
          st.cursor + 1 + 1 + body.length + term.length⟩], st.errs⟩ hdropR rfl
        (by dsimp only; omega) (by dsimp only; omega)
      rw [hIH]
      simp
  | commentEof hb =>
    rename_i body
    intro fuel st hdrop ha hc hf
    obtain ⟨hget, hdrop1⟩ := drop_cons_getElem hdrop
    obtain ⟨hget2, hdrop2⟩ := drop_cons_getElem hdrop1
    have hq : st.cursor < p.length := getElem?_some_lt hget
    have hq2 : st.cursor + 1 < p.length := getElem?_some_lt hget2
    have hadv : advanceToEOL p (st.cursor + 1 + 1) = p.length := by
      unfold advanceToEOL
      exact advanceToEOLGo_eofCase p body (st.cursor + 1 + 1) _ (le_refl _)
        (by omega) hb hdrop2
    have hstep : scanToken p st =
        (none, ⟨p.length, p.length,
          st.buf ++ [⟨trimJS (substringJS p st.anchor p.length), p.length⟩],
          st.errs⟩) := by
      have h0 : scanToken p st =
          scanSlash p ⟨st.cursor + 1, st.anchor, st.buf, st.errs⟩ := by
        unfold scanToken
        rw [hget]
        rfl
      rw [h0]
      simp only [scanSlash]
      dsimp only
      rw [matchC_pos hget2]
      dsimp only
      rw [hadv]
      simp only [lexSubstring]
      try dsimp only
      rw [ha]
      simp
    cases fuel with
    | zero => omega
    | succ f =>
      rw [scanAllGo_step p f st hq, commentLogGo_step p f st hq]
      have hpushc : stepPush p st =
          [⟨trimJS (substringJS p st.anchor p.length), p.length⟩] := by
        unfold stepPush
        rw [hstep]
        exact List.drop_left _ _
      rw [hpushc, hstep]
      try dsimp only
      rw [scanAllGo_at_end p f _ rfl,
        commentLogGo_at_end p f _ (by dsimp only; omega)]
      simp

/-- Claim C2 (amended): an input consisting only of whitespace and/or line
comments yields a sequence whose only token is EOF — but the buffered
comments are NOT discarded: `createToken(EOF, '')` drains `lastComments`,
so the EOF token carries exactly the comments buffered during the run. -/
theorem only_ws_comments_amended (p : List Char) (h : WsComments p) :
    tokenize p = [⟨.EOF, [], commentLog p, p.length⟩] := by
  unfold tokenize tokenizeFull commentLog
  rw [scanAllGo_wsComments p p h (p.length + 1) ⟨0, 0, [], []⟩ (List.drop_zero p) rfl
    (Nat.zero_le _) (by show p.length - 0 < p.length + 1; omega)]
  simp

/-- Claim C2, witness: the comment-only input `// hi` yields the single EOF
token carrying the buffered comment. -/
theorem only_ws_comments_amended_witness :
    tokenize ("// hi".toList) = [⟨.EOF, [], [⟨"// hi".toList, 5⟩], 5⟩] := by
  have hws : WsComments ("// hi".toList) :=
    @WsComments.commentEof (" hi".toList) (by decide)
  have h := only_ws_comments_amended ("// hi".toList) hws
  rw [h]
  rfl

end Clutch
